import Mathlib

/-!
Verification of the open-review progress-streaming and phase-inference
engine against its natural-language specification.

The definitions below are a shallow embedding of the TypeScript source:

* `backend/src/agents/orchestrator.ts` (`runReview`, `addUsage`,
  `emitProgress`, the phase/activity/usage state machine) — embedded as a
  pure fold over an input stream of typed engine messages, each carrying
  the wall-clock time (in ms) at which it is processed (`Date.now()`);
* `backend/src/routes/reviews.ts` (`GET /api/reviews/:id/stream`,
  `POST /api/reviews/:id/rerun`, `startReviewProcess`) — embedded as pure
  functions from the persisted job record to the observable outcome;
* `frontend/src/components/ProgressPanel.tsx` (`handleEvent`, `phase`
  case) — embedded as a pure list transformation.

JavaScript `number` arithmetic on token counts, times and percentages is
modelled exactly over `Int`/`ℚ` (all values involved are small integers,
exactly representable); `Math.round` is modelled as `jsRound`.
-/

namespace OpenReview

/-- The four review phases, in pipeline order (shared/src/types.ts). -/
inductive ReviewPhase
  | understanding
  | exploring
  | analyzing
  | synthesizing
deriving DecidableEq, Repr

/-- Position of a phase in the fixed order understanding < exploring <
analyzing < synthesizing. -/
def phaseIdx : ReviewPhase → Nat
  | .understanding => 0
  | .exploring => 1
  | .analyzing => 2
  | .synthesizing => 3

/-- Token usage counters (shared/src/types.ts `TokenUsage`). -/
structure TokenUsage where
  inputTokens : Int
  outputTokens : Int
  cacheReadTokens : Int
  cacheCreationTokens : Int
deriving DecidableEq, Repr

/-- `emptyTokenUsage()` from orchestrator.ts. -/
def emptyTokenUsage : TokenUsage :=
  { inputTokens := 0, outputTokens := 0, cacheReadTokens := 0, cacheCreationTokens := 0 }

/-- The optional-field usage record attached to an API message
(`apiUsage` parameter of `addUsage`); a missing field is `none`. -/
structure ApiUsage where
  input_tokens : Option Int := none
  output_tokens : Option Int := none
  cache_read_input_tokens : Option Int := none
  cache_creation_input_tokens : Option Int := none
deriving DecidableEq, Repr

/-- `addUsage(acc, apiUsage)` from orchestrator.ts: add the four optional
numeric fields into the accumulator, missing fields (and a missing whole
record) treated as zero. -/
def addUsage (acc : TokenUsage) (apiUsage : Option ApiUsage) : TokenUsage :=
  match apiUsage with
  | none => acc
  | some u =>
      { inputTokens := acc.inputTokens + u.input_tokens.getD 0
        outputTokens := acc.outputTokens + u.output_tokens.getD 0
        cacheReadTokens := acc.cacheReadTokens + u.cache_read_input_tokens.getD 0
        cacheCreationTokens := acc.cacheCreationTokens + u.cache_creation_input_tokens.getD 0 }

/-- JavaScript `Math.round` on an exact rational: round half toward
positive infinity. -/
def jsRound (q : ℚ) : Int := ⌊q + 1 / 2⌋

/-! ### Client-side phase list (ProgressPanel.tsx) -/

/-- Status of one entry of the client's phase list. -/
inductive PhaseStatus
  | pending
  | active
  | completed
deriving DecidableEq, Repr

/-- One entry of the client's phase list (`PhaseInfo`). -/
structure PhaseInfo where
  key : ReviewPhase
  label : String
  status : PhaseStatus
  message : Option String := none
deriving DecidableEq, Repr

/-- `PHASE_ORDER` from ProgressPanel.tsx. -/
def PHASE_ORDER : List ReviewPhase :=
  [.understanding, .exploring, .analyzing, .synthesizing]

/-- `PHASE_ORDER.indexOf(p)`. -/
def phasePos (p : ReviewPhase) : Nat := PHASE_ORDER.indexOf p

/-- The `case "phase"` branch of `handleEvent` in ProgressPanel.tsx:
given the event's phase and message, update the previous phase list. -/
def handlePhaseEvent (phase : ReviewPhase) (message : String)
    (prev : List PhaseInfo) : List PhaseInfo :=
  prev.map fun p =>
    if p.key = phase then { p with status := .active, message := some message }
    else if phasePos p.key < phasePos phase then { p with status := .completed }
    else p

/-! ### Engine message stream (input of `runReview`) -/

/-- The fields of a tool invocation's `input` payload that the
orchestrator reads; a field absent from the payload is `none`. -/
structure ToolInput where
  subagent_type : Option String := none
  description : Option String := none
  file_path : Option String := none
  pattern : Option String := none
deriving DecidableEq, Repr

/-- A content block of an engine message.  The orchestrator checks
`block.type` before each use, so one union covers assistant and user
content; unrecognized block shapes are `.otherBlock`. -/
inductive ContentBlock
  | text (text : String)
  | toolUse (name : String) (id : String) (input : ToolInput)
  | toolResult (tool_use_id : Option String)
  | otherBlock
deriving DecidableEq, Repr

/-- JavaScript truthiness of an optional string field (`undefined` and
the empty string are falsy). -/
def strTruthy : Option String → Bool
  | none => false
  | some s => s ≠ ""

/-- One message yielded by the execution engine's `query` iterator, as
read by `runReview`'s loop.  `parent_tool_use_id = none` models
`parent_tool_use_id === null` (a lead-agent message). -/
inductive EngineMessage
  | systemInit
  | assistant (parent_tool_use_id : Option String) (content : List ContentBlock)
      (usage : Option ApiUsage)
  | user (content : List ContentBlock)
  | resultSuccess (result : String) (total_cost_usd : ℚ)
  | resultFailure (subtype : String) (errors : String) (total_cost_usd : ℚ)
  | otherMessage
deriving DecidableEq, Repr

/-- An engine message paired with the wall-clock time (ms, the value
`Date.now()` returns while the message is processed). -/
structure Timed where
  time : Int
  msg : EngineMessage
deriving DecidableEq, Repr

/-! ### Progress events (output of `runReview`) -/

/-- Subagent lifecycle status carried by `subagent` events. -/
inductive SubagentStatus
  | started
  | completed
deriving DecidableEq, Repr

/-- Terminal status carried by `complete` events. -/
inductive CompleteStatus
  | completed
  | error
deriving DecidableEq, Repr

/-- Per-subagent usage entry of a `usage` event (`SubagentUsage`). -/
structure SubagentUsage where
  agentType : String
  description : String
  usage : TokenUsage
  model : String
deriving DecidableEq, Repr

/-- The `ProgressEvent` union (shared/src/types.ts); the wire timestamp
(an ISO string of the emission time) is modelled as the emission time in
ms. -/
inductive ProgressEvent
  | phase (timestamp : Int) (phase : ReviewPhase) (message : String)
  | subagent (timestamp : Int) (agentType description : String) (status : SubagentStatus)
  | activity (timestamp : Int) (agentType tool detail : String)
  | progress (timestamp : Int) (percent : Int) (message : String)
  | usage (timestamp : Int) (session : TokenUsage) (subagents : List SubagentUsage)
      (costUsd : ℚ)
  | complete (timestamp : Int) (status : CompleteStatus) (message : Option String)
deriving DecidableEq, Repr

/-- An emitted event together with the throttle key (the subtask
correlation id `parentToolUseId`) that produced it — recorded for
`activity` events only, `none` otherwise.  The wire event is the
`event` field; `key` is pure observation data for the theorems. -/
structure Emitted where
  event : ProgressEvent
  key : Option String := none
deriving DecidableEq, Repr

/-! ### Orchestrator state (`runReview` locals) -/

/-- JS `Map.get`: value of the first (unique) binding of `k`. -/
def mapGet {α : Type} (m : List (String × α)) (k : String) : Option α :=
  (m.find? fun p => p.1 = k).map (·.2)

/-- JS `Map.set`: replace the binding of `k` in place, or append it. -/
def mapSet {α : Type} : List (String × α) → String → α → List (String × α)
  | [], k, v => [(k, v)]
  | p :: rest, k, v =>
      if p.1 = k then (k, v) :: mapSet rest k v else p :: mapSet rest k v

/-- `taskMap` entry: info recorded when a `Task` delegation is seen. -/
structure TaskInfo where
  agentType : String
  description : String
deriving DecidableEq, Repr

/-- `subagentTokens` entry. -/
structure SubTokens where
  agentType : String
  description : String
  model : String
  usage : TokenUsage
deriving DecidableEq, Repr

/-- The three model choices passed to `runReview` (`config`). -/
structure AgentConfig where
  leadModel : String
  explorerModel : String
  seniorDevModel : String
deriving DecidableEq, Repr

/-- JS `x || "sonnet"` on a model string (empty string is falsy). -/
def modelOr (m : String) : String := if m = "" then "sonnet" else m

/-- The mutable locals of `runReview` that drive phase inference,
activity throttling and usage tracking. -/
structure OrchState where
  currentPhase : ReviewPhase
  totalExplorers : Nat
  completedExplorers : Nat
  seniorDevStarted : Bool
  seniorDevCompleted : Bool
  taskMap : List (String × TaskInfo)
  subagentTokens : List (String × SubTokens)
  activityThrottle : List (String × Int)
  lastUsageEmitTime : Int
  sessionTokens : TokenUsage
  leadAgentTokens : TokenUsage
deriving DecidableEq, Repr

/-- The initial values of `runReview`'s locals. -/
def initOrchState : OrchState :=
  { currentPhase := .understanding
    totalExplorers := 0
    completedExplorers := 0
    seniorDevStarted := false
    seniorDevCompleted := false
    taskMap := []
    subagentTokens := []
    activityThrottle := []
    lastUsageEmitTime := 0
    sessionTokens := emptyTokenUsage
    leadAgentTokens := emptyTokenUsage }

/-! ### Emit helpers (`emitProgress`, `emitUsageIfDue`) -/

/-- The `(percent, message)` pair computed by `emitProgress` from the
current state. -/
def progressData (s : OrchState) : Int × String :=
  match s.currentPhase with
  | .understanding => (5, "Reading and understanding the PRD...")
  | .exploring =>
      (if s.totalExplorers > 0 then
          jsRound (10 + 50 * ((s.completedExplorers : ℚ) / (s.totalExplorers : ℚ)))
        else 15,
       if s.totalExplorers > 0 then
          "Exploring codebase (" ++ toString s.completedExplorers ++ "/"
            ++ toString s.totalExplorers ++ " complete)"
        else "Exploring codebase...")
  | .analyzing =>
      (if s.seniorDevCompleted then 85 else 70,
       if s.seniorDevCompleted then "Analysis complete, preparing final output..."
        else "Senior developer analyzing findings...")
  | .synthesizing => (92, "Synthesizing final review...")

/-- The `progress` event `emitProgress` emits at time `t`. -/
def mkProgress (t : Int) (s : OrchState) : ProgressEvent :=
  .progress t (progressData s).1 (progressData s).2

/-- The `usage` event payload assembled by `emitUsageIfDue`: session
totals, all known subagent usage records in insertion order, and the
rough running cost estimate (sonnet pricing, $3/M in and $15/M out). -/
def usageSnapshot (t : Int) (s : OrchState) : ProgressEvent :=
  .usage t s.sessionTokens
    (s.subagentTokens.map fun p =>
      { agentType := p.2.agentType, description := p.2.description
        usage := p.2.usage, model := p.2.model })
    ((s.sessionTokens.inputTokens : ℚ) * 3 / 1000000
      + (s.sessionTokens.outputTokens : ℚ) * 15 / 1000000)

/-- `emitUsageIfDue()`: emit a usage snapshot unless less than 5000 ms
elapsed since the last one; on emission record the emission time. -/
def emitUsageIfDue (t : Int) (s : OrchState) : OrchState × List Emitted :=
  if t - s.lastUsageEmitTime < 5000 then (s, [])
  else ({ s with lastUsageEmitTime := t }, [{ event := usageSnapshot t s }])

/-! ### Assistant-message block processing -/

/-- The lead-agent text branch: a truthy `text` block with
`parentToolUseId === null`; if the senior developer is done and the
phase is not yet synthesizing, transition to synthesizing. -/
def stageText (parent : Option String) (t : Int) (s : OrchState)
    (b : ContentBlock) : OrchState × List Emitted :=
  match b with
  | .text txt =>
      if txt ≠ "" ∧ parent = none then
        if s.seniorDevCompleted ∧ s.currentPhase ≠ .synthesizing then
          let s1 := { s with currentPhase := .synthesizing }
          (s1, [{ event := .phase t .synthesizing "Synthesizing final review..." },
                { event := mkProgress t s1 }])
        else (s, [])
      else (s, [])
  | _ => (s, [])

/-- The `Task` tool-invocation branch: record the delegation in
`taskMap` and `subagentTokens`, run phase detection, emit a `subagent`
started event and a progress update. -/
def stageTask (t : Int) (config : AgentConfig) (s : OrchState)
    (b : ContentBlock) : OrchState × List Emitted :=
  match b with
  | .toolUse nm id input =>
      if nm = "Task" then
        let agentType := input.subagent_type.getD "unknown"
        let description := input.description.getD ""
        let s1 := { s with
          taskMap := mapSet s.taskMap id { agentType, description }
          subagentTokens := mapSet s.subagentTokens id
            { agentType, description
              model := if agentType = "codebase-explorer" then modelOr config.explorerModel
                else modelOr config.seniorDevModel
              usage := emptyTokenUsage } }
        let (s3, phaseEvs) :=
          if agentType = "codebase-explorer" then
            let s2 := { s1 with totalExplorers := s1.totalExplorers + 1 }
            if s2.currentPhase = .understanding then
              ({ s2 with currentPhase := .exploring },
               [{ event := .phase t .exploring
                    ("Exploring codebase (0/" ++ toString s2.totalExplorers
                      ++ " sections)...") }])
            else (s2, [])
          else if agentType = "senior-developer" then
            ({ s1 with seniorDevStarted := true, currentPhase := .analyzing },
             [{ event := .phase t .analyzing "Senior developer analyzing findings..." }])
          else (s1, [])
        (s3, phaseEvs ++
          [{ event := .subagent t agentType description .started },
           { event := mkProgress t s3 }])
      else (s, [])
  | _ => (s, [])

/-- The tool-specific one-line detail for an activity event: file path
for `Read`, quoted pattern for `Grep`, bare pattern for `Glob`, empty
for every other tool or a missing field. -/
def activityDetail (toolName : String) (input : ToolInput) : String :=
  if toolName = "Read" ∧ strTruthy input.file_path then input.file_path.getD ""
  else if toolName = "Grep" ∧ strTruthy input.pattern then
    "pattern: \"" ++ input.pattern.getD "" ++ "\""
  else if toolName = "Glob" ∧ strTruthy input.pattern then
    "pattern: " ++ input.pattern.getD ""
  else ""

/-- The subagent tool-usage branch: a `tool_use` block of a message with
a truthy `parentToolUseId`.  If at least 1000 ms passed since the last
recorded time for this correlation id, record the current time, then
emit an `activity` event when the tool yields a non-empty detail. -/
def stageActivity (parent : Option String) (t : Int) (s : OrchState)
    (b : ContentBlock) : OrchState × List Emitted :=
  match b with
  | .toolUse nm _ input =>
      match parent with
      | some pid =>
          if pid ≠ "" then
            let lastEmit := (mapGet s.activityThrottle pid).getD 0
            if t - lastEmit ≥ 1000 then
              let s1 := { s with activityThrottle := mapSet s.activityThrottle pid t }
              let detail := activityDetail nm input
              if detail ≠ "" then
                (s1, [{ event := .activity t
                          (((mapGet s.taskMap pid).map (·.agentType)).getD "unknown")
                          nm detail
                        key := some pid }])
              else (s1, [])
            else (s, [])
          else (s, [])
      | none => (s, [])
  | _ => (s, [])

/-- Process one content block of an assistant message: the three
branches of the source's block loop, in order, threading the state. -/
def processAssistantBlock (parent : Option String) (t : Int) (config : AgentConfig)
    (s : OrchState) (b : ContentBlock) : OrchState × List Emitted :=
  let (s1, e1) := stageText parent t s b
  let (s2, e2) := stageTask t config s1 b
  let (s3, e3) := stageActivity parent t s2 b
  (s3, e1 ++ e2 ++ e3)

/-- Token-usage accumulation at the head of the assistant branch:
session totals always; lead totals when `parentToolUseId === null`;
the matching subagent entry when the parent id is truthy and known. -/
def accumulateUsage (parent : Option String) (s : OrchState)
    (usage : Option ApiUsage) : OrchState :=
  match usage with
  | none => s
  | some u =>
      let s1 := { s with sessionTokens := addUsage s.sessionTokens (some u) }
      match parent with
      | none => { s1 with leadAgentTokens := addUsage s1.leadAgentTokens (some u) }
      | some pid =>
          if pid ≠ "" then
            match mapGet s1.subagentTokens pid with
            | some entry =>
                let entry' : SubTokens := { entry with usage := addUsage entry.usage (some u) }
                { s1 with subagentTokens := mapSet s1.subagentTokens pid entry' }
            | none => s1
          else s1

/-- Fold a block-processing function over a message's content,
accumulating emitted events in order. -/
def foldBlocks (f : OrchState → ContentBlock → OrchState × List Emitted)
    (s : OrchState) (content : List ContentBlock) : OrchState × List Emitted :=
  content.foldl (fun acc b =>
    let (s', e') := f acc.1 b
    (s', acc.2 ++ e')) (s, [])

/-- Process one assistant message: accumulate usage, process each
content block, then `emitUsageIfDue`. -/
def processAssistantMsg (t : Int) (config : AgentConfig) (s : OrchState)
    (parent : Option String) (content : List ContentBlock)
    (usage : Option ApiUsage) : OrchState × List Emitted :=
  let s0 := accumulateUsage parent s usage
  let (s1, evs) := foldBlocks (processAssistantBlock parent t config) s0 content
  let (s2, evs2) := emitUsageIfDue t s1
  (s2, evs ++ evs2)

/-- Process one `tool_result` block of a user message: when the id is
truthy and matches a tracked delegation, bump the explorer completion
count or mark the senior developer done, emit a `subagent` completed
event and a progress update, then force a usage emission. -/
def processUserBlock (t : Int) (s : OrchState) (b : ContentBlock) :
    OrchState × List Emitted :=
  match b with
  | .toolResult tid =>
      match tid with
      | some rid =>
          if rid ≠ "" then
            match mapGet s.taskMap rid with
            | some subInfo =>
                let s1 :=
                  if subInfo.agentType = "codebase-explorer" then
                    { s with completedExplorers := s.completedExplorers + 1 }
                  else if subInfo.agentType = "senior-developer" then
                    { s with seniorDevCompleted := true }
                  else s
                let evs : List Emitted :=
                  [{ event := .subagent t subInfo.agentType subInfo.description .completed },
                   { event := mkProgress t s1 }]
                let s2 := { s1 with lastUsageEmitTime := 0 }
                let (s3, evs2) := emitUsageIfDue t s2
                (s3, evs ++ evs2)
            | none => (s, [])
          else (s, [])
      | none => (s, [])
  | _ => (s, [])

/-- Process one user message (tool results flowing back). -/
def processUserMsg (t : Int) (s : OrchState) (content : List ContentBlock) :
    OrchState × List Emitted :=
  foldBlocks (processUserBlock t) s content

/-! ### The `runReview` message loop -/

/-- The loop-level accumulator: orchestrator state, emitted events so
far, and the terminal-result captures (the model-usage breakdown and
turn/duration bookkeeping of the success branch are not inspected by
any claim and are not modelled). -/
structure LoopState where
  st : OrchState
  events : List Emitted
  finalResult : String
  totalCostUsd : ℚ
deriving DecidableEq, Repr

/-- The message of the `Error` thrown for a non-success terminal result
(`errors` stands for the source's `JSON.stringify(errors)`). -/
def agentFailureMessage (subtype : String) (errors : String) : String :=
  "Agent failed with subtype: " ++ subtype ++ ". Errors: " ++ errors

/-- Process one engine message.  A non-success terminal result throws:
the error message, the throw time and the loop state at the throw are
returned on the left. -/
def processMessage (config : AgentConfig) (ls : LoopState) (tm : Timed) :
    Except (String × Int × LoopState) LoopState :=
  match tm.msg with
  | .systemInit => .ok ls
  | .assistant parent content usage =>
      let (s', evs) := processAssistantMsg tm.time config ls.st parent content usage
      .ok { ls with st := s', events := ls.events ++ evs }
  | .user content =>
      let (s', evs) := processUserMsg tm.time ls.st content
      .ok { ls with st := s', events := ls.events ++ evs }
  | .resultSuccess result cost =>
      .ok { ls with finalResult := result, totalCostUsd := cost }
  | .resultFailure subtype errors cost =>
      .error (agentFailureMessage subtype errors, tm.time,
        { ls with totalCostUsd := cost })
  | .otherMessage => .ok ls

/-- The `for await` loop over the engine's message stream. -/
def runLoop (config : AgentConfig) (ls : LoopState) :
    List Timed → Except (String × Int × LoopState) LoopState
  | [] => .ok ls
  | m :: rest =>
      match processMessage config ls m with
      | .ok ls' => runLoop config ls' rest
      | .error e => .error e

/-- The two initial emissions of `runReview` (before the loop):
`emitPhase("understanding", ...)` followed by `emitProgress()`. -/
def initLoopState (t0 : Int) : LoopState :=
  { st := initOrchState
    events := [{ event := .phase t0 .understanding "Reading and understanding the PRD..." },
               { event := mkProgress t0 initOrchState }]
    finalResult := ""
    totalCostUsd := 0 }

/-- The loop state carried by either outcome of the loop. -/
def loopStateOf (r : Except (String × Int × LoopState) LoopState) : LoopState :=
  match r with
  | .ok ls => ls
  | .error (_, _, ls) => ls

/-- The loop state after the first `n` messages of the stream (the state
at the throw, for a stream whose prefix throws). -/
def loopAfter (config : AgentConfig) (t0 : Int) (stream : List Timed) (n : Nat) :
    LoopState :=
  loopStateOf (runLoop config (initLoopState t0) (stream.take n))

/-- What the engine does after yielding the whole stream: either the
iteration finishes, or it raises — carrying the raise time and
`some message` for an `Error` (a non-`Error` throw is `none`, rendered
as "Unknown error"). -/
inductive EngineEnd
  | finishes
  | throws (t : Int) (message : Option String)
deriving DecidableEq, Repr

/-- `runReview`'s observable outcome: the full emitted event sequence,
and either the returned output or the re-raised failure message. -/
def runReviewModel (config : AgentConfig) (t0 : Int) (stream : List Timed)
    (engineEnd : EngineEnd) (tEnd : Int) : List Emitted × Except String String :=
  match runLoop config (initLoopState t0) stream with
  | .error (msg, t, ls) =>
      (ls.events ++ [{ event := .complete t .error (some msg) }], .error msg)
  | .ok ls =>
      match engineEnd with
      | .throws t em =>
          let msg := em.getD "Unknown error"
          (ls.events ++ [{ event := .complete t .error (some msg) }], .error msg)
      | .finishes =>
          (ls.events ++ [{ event := .progress tEnd 100 "Review complete!" },
                         { event := .complete tEnd .completed none }],
           .ok ls.finalResult)

/-! ### Routes (backend/src/routes/reviews.ts) -/

/-- Persisted job status. -/
inductive JobStatus
  | pending
  | running
  | completed
  | error
deriving DecidableEq, Repr

/-- The persisted review record fields the stream and rerun handlers
read. -/
structure ReviewMeta where
  id : String
  status : JobStatus
  error : Option String := none
  fileName : String := ""
deriving DecidableEq, Repr

/-- The job-runner tail of `startReviewProcess`: the stored status after
the background task finishes, given `runReview`'s outcome — `completed`
on success, `error` with the captured message on failure. -/
def startReviewFinalStatus (config : AgentConfig) (t0 : Int) (stream : List Timed)
    (engineEnd : EngineEnd) (tEnd : Int) : JobStatus × Option String :=
  match (runReviewModel config t0 stream engineEnd tEnd).2 with
  | .ok _ => (.completed, none)
  | .error m => (.error, some m)

/-- Observable outcome of one `GET /api/reviews/:id/stream` request at
connect time: HTTP status, the `data:` frames written synchronously,
whether the response was ended, whether a listener was attached to the
job's broadcaster, and whether the handler started polling for a future
broadcaster (attaching once found) and the keepalive timer. -/
structure StreamOutcome where
  httpStatus : Nat
  writes : List ProgressEvent
  ended : Bool
  subscribedNow : Bool
  pollForEmitter : Bool
  keepaliveStarted : Bool
deriving DecidableEq, Repr

/-- The stream endpoint handler, as a function of the stored record
(`none` when `getReviewMeta` finds nothing), whether `reviewEmitters`
already holds an emitter for the job, and the connect time. -/
def streamEndpoint (meta : Option ReviewMeta) (emitterExists : Bool) (t : Int) :
    StreamOutcome :=
  match meta with
  | none =>
      { httpStatus := 404, writes := [], ended := true, subscribedNow := false
        pollForEmitter := false, keepaliveStarted := false }
  | some m =>
      if m.status = .completed ∨ m.status = .error then
        { httpStatus := 200
          writes := [.complete t (if m.status = .error then .error else .completed)
            (if m.status = .error then m.error else none)]
          ended := true, subscribedNow := false, pollForEmitter := false
          keepaliveStarted := false }
      else
        { httpStatus := 200
          writes := if emitterExists then []
            else [.phase t .understanding "Waiting to start..."]
          ended := false, subscribedNow := emitterExists
          pollForEmitter := ¬emitterExists, keepaliveStarted := true }

/-- Observable outcome of one `POST /api/reviews/:id/rerun` request:
HTTP status, the stored status after the handler's synchronous part
(`none` when the job does not exist), and whether a new background run
was started. -/
structure RerunOutcome where
  httpStatus : Nat
  storedStatus : Option JobStatus
  startedNewRun : Bool
deriving DecidableEq, Repr

/-- The rerun endpoint handler: 409 without touching storage while the
job is running; otherwise reset the stored status to pending and start
`startReviewProcess` in the background. -/
def rerunEndpoint (meta : Option ReviewMeta) : RerunOutcome :=
  match meta with
  | none => { httpStatus := 404, storedStatus := none, startedNewRun := false }
  | some m =>
      if m.status = .running then
        { httpStatus := 409, storedStatus := some m.status, startedNewRun := false }
      else
        { httpStatus := 200, storedStatus := some .pending, startedNewRun := true }

/-! ### Observation helpers for the theorems -/

/-- The wire events of a run. -/
def wireEvents (l : List Emitted) : List ProgressEvent := l.map (·.event)

/-- The phases carried by the `phase` events of a trace, in emission
order. -/
def phaseTrace (evs : List ProgressEvent) : List ReviewPhase :=
  evs.filterMap fun e =>
    match e with
    | .phase _ p _ => some p
    | _ => none

/-- The percent values carried by the `progress` events of a trace. -/
def progressPercents (evs : List ProgressEvent) : List Int :=
  evs.filterMap fun e =>
    match e with
    | .progress _ p _ => some p
    | _ => none

/-- Emission times of the `activity` events produced for throttle key
`k`, in emission order. -/
def activityTimes (l : List Emitted) (k : String) : List Int :=
  l.filterMap fun e =>
    match e.event with
    | .activity t _ _ _ => if e.key = some k then some t else none
    | _ => none

/-- The valid (truthy) `tool_use_id`s of the `tool_result` blocks of a
block list, in order. -/
def blockResultIds (content : List ContentBlock) : List String :=
  content.filterMap fun b =>
    match b with
    | .toolResult (some rid) => if rid ≠ "" then some rid else none
    | _ => none

/-- The valid `tool_result` ids a message contributes (user messages
only — the assistant branch ignores `tool_result` blocks). -/
def msgResultIds : EngineMessage → List String
  | .user content => blockResultIds content
  | _ => []

/-- All valid `tool_result` ids of a stream, in processing order. -/
def streamResultIds (stream : List Timed) : List String :=
  stream.flatMap fun tm => msgResultIds tm.msg

/-- Whether an engine message is a non-success terminal result. -/
def isFailureMsg : EngineMessage → Bool
  | .resultFailure _ _ _ => true
  | _ => false

/-- Whether the engine raises after the yielded stream. -/
def engineEndThrows : EngineEnd → Bool
  | .finishes => false
  | .throws _ _ => true

/-- The phase-event steps `runReview` can actually take: forward in the
fixed order, or the re-entry of `analyzing` that a repeated
senior-developer delegation causes (possibly from `synthesizing`). -/
def phaseStepOk (a b : ReviewPhase) : Prop :=
  phaseIdx a ≤ phaseIdx b ∨ (a = .synthesizing ∧ b = .analyzing)

instance : DecidableRel phaseStepOk := fun a b => by
  unfold phaseStepOk; infer_instance

/-- A processing segment from state `s` to state `s'` emitting `evs`:
every adjacent pair of the phase trace extended with the entry phase is
an allowed step, and the trace ends at the exit phase. -/
def phaseSeg (s s' : OrchState) (evs : List Emitted) : Prop :=
  List.Chain' phaseStepOk (s.currentPhase :: phaseTrace (wireEvents evs)) ∧
  (s.currentPhase :: phaseTrace (wireEvents evs)).getLast? = some s'.currentPhase

/-- Whether a `taskMap` lookup result is a codebase-explorer entry. -/
def isExplorerEntry : Option TaskInfo → Bool
  | some i => i.agentType = "codebase-explorer"
  | none => false

/-- The delegated explorer ids whose completion has not yet been
consumed by a `tool_result`: keys of `taskMap` currently typed
codebase-explorer and not in the set of already-processed result ids. -/
def explorerPending (tm : List (String × TaskInfo)) (seen : Finset String) :
    Finset String :=
  (tm.map Prod.fst).toFinset.filter fun k => isExplorerEntry (mapGet tm k) ∧ k ∉ seen

/-- The counting invariant behind `completedExplorers ≤ totalExplorers`:
completions so far plus pending explorer delegations never exceed the
delegation total. -/
def c3Inv (s : OrchState) (seen : Finset String) : Prop :=
  s.completedExplorers + (explorerPending s.taskMap seen).card ≤ s.totalExplorers

/-- The throttle invariant at a lower time bound `T` for the remaining
stream: per-key activity emission times are spaced at least 1000 ms
apart, every stored throttle time dominates that key's emissions and is
at most `T`, and a key with no stored time has no emissions. -/
def throttleInv (s : OrchState) (tr : List Emitted) (T : Int) : Prop :=
  (∀ k, List.Chain' (fun a b => a + 1000 ≤ b) (activityTimes tr k)) ∧
  (∀ k v, mapGet s.activityThrottle k = some v →
    v ≤ T ∧ ∀ te ∈ activityTimes tr k, te ≤ v) ∧
  (∀ k, mapGet s.activityThrottle k = none → activityTimes tr k = [])

/-! ### Concrete fixtures used by witnesses and counterexamples -/

/-- A config with every model set to "sonnet". -/
def demoConfig : AgentConfig :=
  { leadModel := "sonnet", explorerModel := "sonnet", seniorDevModel := "sonnet" }

/-- A lead-agent `Task` delegation block launching a codebase-explorer. -/
def explorerTask (id : String) : ContentBlock :=
  .toolUse "Task" id
    { subagent_type := some "codebase-explorer", description := some ("explore " ++ id) }

/-- A lead-agent `Task` delegation block launching the senior developer. -/
def seniorTask (id : String) : ContentBlock :=
  .toolUse "Task" id
    { subagent_type := some "senior-developer", description := some "analyze findings" }

/-- C2's scenario stream: delegate three codebase explorers, then the
three completions arrive one second apart. -/
def c2Stream : List Timed :=
  [ { time := 1000000,
      msg := .assistant none [explorerTask "e1", explorerTask "e2", explorerTask "e3"] none },
    { time := 1001000, msg := .user [.toolResult (some "e1")] },
    { time := 1002000, msg := .user [.toolResult (some "e2")] },
    { time := 1003000, msg := .user [.toolResult (some "e3")] } ]

/-- C1's counterexample stream: senior developer delegated, completed,
lead text (entering synthesizing), then the senior developer is
delegated a second time. -/
def c1Stream : List Timed :=
  [ { time := 1000000, msg := .assistant none [seniorTask "s1"] none },
    { time := 1001000, msg := .user [.toolResult (some "s1")] },
    { time := 1002000, msg := .assistant none [.text "Here is the final review."] none },
    { time := 1003000, msg := .assistant none [seniorTask "s2"] none } ]

/-- C3's counterexample stream: one explorer delegated, but two
`tool_result` blocks carry its `tool_use_id`. -/
def c3Stream : List Timed :=
  [ { time := 1000000, msg := .assistant none [explorerTask "e1"] none },
    { time := 1001000,
      msg := .user [.toolResult (some "e1"), .toolResult (some "e1")] } ]

/-- C8's witness stream: one explorer delegation, then three `Read`
invocations from that subtask 500 ms, 200 ms and 1300 ms apart. -/
def c8Stream : List Timed :=
  [ { time := 1000000, msg := .assistant none [explorerTask "e1"] none },
    { time := 1000500,
      msg := .assistant (some "e1")
        [.toolUse "Read" "r1" { file_path := some "/a.ts" }] none },
    { time := 1000700,
      msg := .assistant (some "e1")
        [.toolUse "Read" "r2" { file_path := some "/b.ts" }] none },
    { time := 1002000,
      msg := .assistant (some "e1")
        [.toolUse "Read" "r3" { file_path := some "/c.ts" }] none } ]

/-- C10's counterexample stream: an eligible `Read` at 1002000 (emits,
stores 1002000), an ineligible `Bash` at 1002500 arriving inside the
window, then an eligible `Read` at 1003100. -/
def c10Stream : List Timed :=
  [ { time := 1000000, msg := .assistant none [explorerTask "e1"] none },
    { time := 1002000,
      msg := .assistant (some "e1")
        [.toolUse "Read" "r1" { file_path := some "/a.ts" }] none },
    { time := 1002500, msg := .assistant (some "e1") [.toolUse "Bash" "r2" {}] none },
    { time := 1003100,
      msg := .assistant (some "e1")
        [.toolUse "Read" "r3" { file_path := some "/b.ts" }] none } ]

/-- An exploring-phase state with 2 of 3 explorers completed. -/
def c2WitnessState : OrchState :=
  { initOrchState with
    currentPhase := .exploring
    totalExplorers := 3
    completedExplorers := 2 }

/-! ## Theorems -/

/-! ### Map lemmas -/

theorem mapGet_nil {α : Type} (k : String) : mapGet ([] : List (String × α)) k = none :=
  rfl

theorem mapGet_cons {α : Type} (p : String × α) (rest : List (String × α)) (k : String) :
    mapGet (p :: rest) k = if p.1 = k then some p.2 else mapGet rest k := by
  by_cases hp : p.1 = k
  · rw [if_pos hp]
    unfold mapGet
    rw [List.find?_cons_of_pos _ (by simpa using hp)]
    rfl
  · rw [if_neg hp]
    unfold mapGet
    rw [List.find?_cons_of_neg _ (by simpa using hp)]

theorem mapSet_cons_eq {α : Type} (p : String × α) (rest : List (String × α))
    (k : String) (v : α) (hp : p.1 = k) :
    mapSet (p :: rest) k v = (k, v) :: mapSet rest k v := by
  simp [mapSet, hp]

theorem mapSet_cons_ne {α : Type} (p : String × α) (rest : List (String × α))
    (k : String) (v : α) (hp : ¬ p.1 = k) :
    mapSet (p :: rest) k v = p :: mapSet rest k v := by
  simp [mapSet, hp]

theorem mapGet_mapSet {α : Type} (m : List (String × α)) (k k' : String) (v : α) :
    mapGet (mapSet m k v) k' = if k' = k then some v else mapGet m k' := by
  induction m with
  | nil =>
      rw [show mapSet ([] : List (String × α)) k v = [(k, v)] from rfl, mapGet_cons]
      by_cases h : k' = k
      · rw [if_pos h.symm, if_pos h]
      · rw [if_neg (fun hh => h hh.symm), if_neg h]
  | cons p rest ih =>
      by_cases hp : p.1 = k
      · rw [mapSet_cons_eq p rest k v hp, mapGet_cons, mapGet_cons, hp]
        by_cases h : k' = k
        · rw [if_pos h.symm, if_pos h]
        · rw [if_neg (fun hh => h hh.symm), if_neg h, if_neg (fun hh => h hh.symm),
            ih, if_neg h]
      · rw [mapSet_cons_ne p rest k v hp, mapGet_cons, mapGet_cons, ih]
        by_cases hq : p.1 = k'
        · have h : ¬ k' = k := fun hh => hp (by rw [hq, hh])
          rw [if_pos hq, if_neg h, if_pos hq]
        · rw [if_neg hq, if_neg hq]

theorem keys_mapSet {α : Type} (m : List (String × α)) (k : String) (v : α) :
    ((mapSet m k v).map Prod.fst).toFinset = insert k (m.map Prod.fst).toFinset := by
  induction m with
  | nil => simp [mapSet]
  | cons p rest ih =>
      by_cases hp : p.1 = k
      · rw [mapSet_cons_eq p rest k v hp]
        simp [ih, hp]
      · rw [mapSet_cons_ne p rest k v hp]
        simp only [List.map_cons, List.toFinset_cons, ih]
        exact Finset.Insert.comm _ _ _

theorem mapGet_mem_keys {α : Type} (m : List (String × α)) (k : String) (v : α)
    (h : mapGet m k = some v) : k ∈ (m.map Prod.fst).toFinset := by
  induction m with
  | nil => rw [mapGet_nil] at h; exact absurd h (by simp)
  | cons p rest ih =>
      rw [mapGet_cons] at h
      by_cases hp : p.1 = k
      · simp [← hp]
      · rw [if_neg hp] at h
        simp only [List.map_cons, List.toFinset_cons, Finset.mem_insert]
        exact Or.inr (ih h)

/-! ### C7 — usage accumulation is order-independent -/

/-- **C7.** `addUsage` is order-independent: for every counter set and
every pair of incoming usage records (any subset of the four optional
fields present, missing fields read as zero), adding U1 then U2 gives
the same four counters as adding U2 then U1. -/
theorem addUsage_comm (acc : TokenUsage) (u1 u2 : Option ApiUsage) :
    addUsage (addUsage acc u1) u2 = addUsage (addUsage acc u2) u1 := by
  cases acc
  cases u1 <;> cases u2
  all_goals simp [addUsage, TokenUsage.mk.injEq]
  all_goals omega

/-! ### C6 — rerun is rejected exactly while running -/

/-- **C6.** The rerun handler answers 409 and leaves the stored status
untouched exactly when the job is running; in every other status it
resets the stored status to pending and starts a new background run. -/
theorem rerunEndpoint_spec (m : ReviewMeta) :
    rerunEndpoint (some m) =
      (if m.status = .running then
        { httpStatus := 409, storedStatus := some m.status, startedNewRun := false }
      else
        { httpStatus := 200, storedStatus := some JobStatus.pending,
          startedNewRun := true }) := by
  simp [rerunEndpoint]

/-! ### C4 — late subscriber to a terminal job -/

/-- **C4.** Connecting to the stream endpoint of a job whose stored
status is completed or error yields exactly one synthesized `complete`
event carrying the persisted status (and the persisted error message
exactly when the status is error), the response is ended, and no
listener is attached to any broadcaster (no subscription, no polling
for a future one). -/
theorem streamEndpoint_terminal (m : ReviewMeta) (emitterExists : Bool) (t : Int)
    (h : m.status = .completed ∨ m.status = .error) :
    streamEndpoint (some m) emitterExists t =
      { httpStatus := 200
        writes := [.complete t (if m.status = .error then .error else .completed)
          (if m.status = .error then m.error else none)]
        ended := true, subscribedNow := false, pollForEmitter := false
        keepaliveStarted := false } := by
  simp only [streamEndpoint, if_pos h]

theorem streamEndpoint_terminal_witness :
    streamEndpoint (some { id := "j1", status := .error, error := some "boom" }) true 42 =
      { httpStatus := 200
        writes := [.complete 42 .error (some "boom")]
        ended := true, subscribedNow := false, pollForEmitter := false
        keepaliveStarted := false } := by
  have := streamEndpoint_terminal
    { id := "j1", status := .error, error := some "boom" } true 42 (Or.inr rfl)
  simpa using this

/-! ### C9 — client `phase` event handling -/

theorem phasePos_eq_phaseIdx (p : ReviewPhase) : phasePos p = phaseIdx p := by
  cases p <;> rfl

/-- **C9.** For every client phase-list state and received `phase` event
naming phase `P` with message `msg`, the handler keeps the list length,
turns each entry keyed `P` active attaching the message, marks each
entry keyed strictly before `P` completed, and leaves each entry keyed
strictly after `P` unchanged. -/
theorem handlePhaseEvent_spec (P : ReviewPhase) (msg : String)
    (prev : List PhaseInfo) (i : Nat) (p : PhaseInfo) (hp : prev[i]? = some p) :
    (handlePhaseEvent P msg prev).length = prev.length ∧
    (p.key = P →
      (handlePhaseEvent P msg prev)[i]? =
        some { p with status := .active, message := some msg }) ∧
    (phaseIdx p.key < phaseIdx P →
      (handlePhaseEvent P msg prev)[i]? = some { p with status := .completed }) ∧
    (phaseIdx P < phaseIdx p.key →
      (handlePhaseEvent P msg prev)[i]? = some p) := by
  have hmap : (handlePhaseEvent P msg prev)[i]? = prev[i]?.map
      (fun q => if q.key = P then { q with status := .active, message := some msg }
        else if phasePos q.key < phasePos P then { q with status := .completed }
        else q) := by
    simp [handlePhaseEvent]
  refine ⟨by simp [handlePhaseEvent], ?_, ?_, ?_⟩
  · intro hk
    simp [hmap, hp, hk]
  · intro hlt
    have hne : ¬ p.key = P := fun he => by simp [he] at hlt
    simp [hmap, hp, hne, phasePos_eq_phaseIdx, hlt]
  · intro hgt
    have hne : ¬ p.key = P := fun he => by simp [he] at hgt
    have hnl : ¬ phaseIdx p.key < phaseIdx P := by omega
    simp [hmap, hp, hne, phasePos_eq_phaseIdx, hnl]

theorem handlePhaseEvent_spec_witness :
    (handlePhaseEvent .analyzing "working"
      [{ key := .understanding, label := "U", status := .completed },
       { key := .exploring, label := "E", status := .active },
       { key := .analyzing, label := "A", status := .pending },
       { key := .synthesizing, label := "S", status := .pending }])[3]? =
      some { key := .synthesizing, label := "S", status := .pending } := by
  exact (handlePhaseEvent_spec .analyzing "working" _ 3
    { key := .synthesizing, label := "S", status := .pending } rfl).2.2.2 (by decide)

/-! ### C2 — exploring-phase progress percentage -/

/-- **C2.** Every `progress` event computed while the phase is exploring
carries percent `round(10 + 50 × completedExplorers / totalExplorers)`
(the fixed value 15 when no explorer was delegated); in the concrete
scenario, after delegating 3 explorers and receiving 2 completions the
emitted percent is 43, and the progress emission tied to the third
completion carries 60. -/
theorem exploringPercent_spec :
    (∀ s : OrchState, s.currentPhase = .exploring →
      (progressData s).1 =
        (if s.totalExplorers > 0 then
          jsRound (10 + 50 * ((s.completedExplorers : ℚ) / (s.totalExplorers : ℚ)))
        else 15)) ∧
    (progressPercents (wireEvents (loopAfter demoConfig 999000 c2Stream 3).events)).getLast?
      = some 43 ∧
    (progressPercents (wireEvents (loopAfter demoConfig 999000 c2Stream 4).events)).getLast?
      = some 60 := by
  refine ⟨?_, by with_unfolding_all rfl, by with_unfolding_all rfl⟩
  rintro ⟨cp, te, ce, sds, sdc, tm, st, act, lu, sst, lat⟩ h
  subst h
  rfl

theorem exploringPercent_spec_witness :
    (progressData c2WitnessState).1 =
      (if c2WitnessState.totalExplorers > 0 then
        jsRound (10 + 50 * ((c2WitnessState.completedExplorers : ℚ)
          / (c2WitnessState.totalExplorers : ℚ)))
      else 15) :=
  exploringPercent_spec.1 c2WitnessState rfl

/-! ### C1 — phase-transition lemmas -/

theorem phaseTrace_append (e1 e2 : List Emitted) :
    phaseTrace (wireEvents (e1 ++ e2))
      = phaseTrace (wireEvents e1) ++ phaseTrace (wireEvents e2) := by
  simp [wireEvents, phaseTrace]

theorem phaseSeg_nil (s : OrchState) : phaseSeg s s [] := by
  constructor
  · simp [phaseTrace, wireEvents]
  · simp [phaseTrace, wireEvents]

theorem phaseSeg_of_silent {s s' : OrchState} (evs : List Emitted)
    (hp : s'.currentPhase = s.currentPhase)
    (he : phaseTrace (wireEvents evs) = []) : phaseSeg s s' evs := by
  constructor
  · rw [he]; exact List.chain'_singleton _
  · rw [he, hp]; rfl

theorem phaseSeg_append {s1 s2 s3 : OrchState} {e1 e2 : List Emitted}
    (h1 : phaseSeg s1 s2 e1) (h2 : phaseSeg s2 s3 e2) :
    phaseSeg s1 s3 (e1 ++ e2) := by
  obtain ⟨hc1, hl1⟩ := h1
  obtain ⟨hc2, hl2⟩ := h2
  have hsplit : s1.currentPhase :: phaseTrace (wireEvents (e1 ++ e2))
      = (s1.currentPhase :: phaseTrace (wireEvents e1)) ++ phaseTrace (wireEvents e2) := by
    rw [phaseTrace_append]; rfl
  constructor
  · rw [hsplit, List.chain'_append]
    refine ⟨hc1, hc2.tail, ?_⟩
    intro x hx y hy
    rw [hl1] at hx
    have hx' : s2.currentPhase = x := by simpa using hx
    rw [← hx']
    exact (List.chain'_cons'.mp hc2).1 y hy
  · rw [hsplit]
    rcases hq : phaseTrace (wireEvents e2) with _ | ⟨a, l⟩
    · rw [hq] at hl2
      simpa using hl1.trans (by simpa using hl2)
    · rw [hq] at hl2
      rw [List.getLast?_append_cons]
      simpa using hl2

theorem phaseStepOk_to_synth (a : ReviewPhase) : phaseStepOk a .synthesizing :=
  Or.inl (by cases a <;> simp [phaseIdx])

theorem phaseStepOk_to_analyzing (a : ReviewPhase) : phaseStepOk a .analyzing := by
  cases a
  · exact Or.inl (by simp [phaseIdx])
  · exact Or.inl (by simp [phaseIdx])
  · exact Or.inl (by simp [phaseIdx])
  · exact Or.inr ⟨rfl, rfl⟩

theorem stageText_seg (parent : Option String) (t : Int) (s : OrchState)
    (b : ContentBlock) : phaseSeg s (stageText parent t s b).1 (stageText parent t s b).2 := by
  cases b with
  | text txt =>
      by_cases h1 : txt ≠ "" ∧ parent = none
      · by_cases h2 : s.seniorDevCompleted ∧ s.currentPhase ≠ .synthesizing
        · simp only [stageText, if_pos h1, if_pos h2]
          constructor
          · simp only [wireEvents, phaseTrace, mkProgress, List.map_cons, List.map_nil,
              List.filterMap_cons, List.filterMap_nil]
            exact List.Chain'.cons (phaseStepOk_to_synth _) (List.chain'_singleton _)
          · simp [wireEvents, phaseTrace, mkProgress]
        · simp only [stageText, if_pos h1, if_neg h2]
          exact phaseSeg_nil s
      · simp only [stageText, if_neg h1]
        exact phaseSeg_nil s
  | toolUse nm id input => exact phaseSeg_nil s
  | toolResult tid => exact phaseSeg_nil s
  | otherBlock => exact phaseSeg_nil s

theorem stageTask_seg (t : Int) (config : AgentConfig) (s : OrchState)
    (b : ContentBlock) : phaseSeg s (stageTask t config s b).1 (stageTask t config s b).2 := by
  cases b with
  | toolUse nm id input =>
      by_cases hn : nm = "Task"
      · by_cases he : input.subagent_type.getD "unknown" = "codebase-explorer"
        · by_cases hu : s.currentPhase = .understanding
          · simp only [stageTask, if_pos hn, he, if_pos rfl, hu, if_pos rfl]
            constructor
            · simp only [wireEvents, phaseTrace, mkProgress, List.map_cons, List.map_nil,
                List.map_append, List.filterMap_cons, List.filterMap_nil, List.cons_append,
                List.nil_append, hu]
              exact List.Chain'.cons (Or.inl (by simp [phaseIdx])) (List.chain'_singleton _)
            · simp [wireEvents, phaseTrace, mkProgress]
          · simp only [stageTask, if_pos hn, he, if_pos rfl, hu, if_neg hu]
            apply phaseSeg_of_silent
            · rfl
            · simp [wireEvents, phaseTrace, mkProgress]
        · by_cases hs : input.subagent_type.getD "unknown" = "senior-developer"
          · simp only [stageTask, if_pos hn, he, if_neg he, hs, if_pos rfl]
            constructor
            · simp only [wireEvents, phaseTrace, mkProgress, List.map_cons, List.map_nil,
                List.map_append, List.filterMap_cons, List.filterMap_nil, List.cons_append,
                List.nil_append]
              exact List.Chain'.cons (phaseStepOk_to_analyzing _) (List.chain'_singleton _)
            · simp [wireEvents, phaseTrace, mkProgress]
          · simp only [stageTask, if_pos hn, if_neg he, if_neg hs]
            apply phaseSeg_of_silent
            · rfl
            · simp [wireEvents, phaseTrace, mkProgress]
      · simp only [stageTask, if_neg hn]
        exact phaseSeg_nil s
  | text txt => exact phaseSeg_nil s
  | toolResult tid => exact phaseSeg_nil s
  | otherBlock => exact phaseSeg_nil s

theorem stageActivity_silent (parent : Option String) (t : Int) (s : OrchState)
    (b : ContentBlock) :
    (stageActivity parent t s b).1.currentPhase = s.currentPhase ∧
    phaseTrace (wireEvents (stageActivity parent t s b).2) = [] := by
  cases b with
  | toolUse nm id input =>
      cases parent with
      | none => exact ⟨rfl, rfl⟩
      | some pid =>
          by_cases hp : pid ≠ ""
          · by_cases hg : t - (mapGet s.activityThrottle pid).getD 0 ≥ 1000
            · by_cases hd : activityDetail nm input ≠ ""
              · simp [stageActivity, hp, hg, hd, wireEvents, phaseTrace]
              · simp [stageActivity, hp, hg, hd, wireEvents, phaseTrace]
            · simp [stageActivity, hp, hg, wireEvents, phaseTrace]
          · simp [stageActivity, hp, wireEvents, phaseTrace]
  | text txt => exact ⟨rfl, rfl⟩
  | toolResult tid => exact ⟨rfl, rfl⟩
  | otherBlock => exact ⟨rfl, rfl⟩

theorem processAssistantBlock_seg (parent : Option String) (t : Int)
    (config : AgentConfig) (s : OrchState) (b : ContentBlock) :
    phaseSeg s (processAssistantBlock parent t config s b).1
      (processAssistantBlock parent t config s b).2 := by
  have h1 := stageText_seg parent t s b
  have h2 := stageTask_seg t config (stageText parent t s b).1 b
  have h3 := stageActivity_silent parent t (stageTask t config (stageText parent t s b).1 b).1 b
  have h3' : phaseSeg (stageTask t config (stageText parent t s b).1 b).1
      (stageActivity parent t (stageTask t config (stageText parent t s b).1 b).1 b).1
      (stageActivity parent t (stageTask t config (stageText parent t s b).1 b).1 b).2 :=
    phaseSeg_of_silent _ h3.1 h3.2
  have := phaseSeg_append (phaseSeg_append h1 h2) h3'
  simpa [processAssistantBlock] using this

theorem foldBlocks_eq_foldl (f : OrchState → ContentBlock → OrchState × List Emitted)
    (s : OrchState) (bs : List ContentBlock) :
    foldBlocks f s bs
      = bs.foldl (fun acc b => ((f acc.1 b).1, acc.2 ++ (f acc.1 b).2)) (s, []) := rfl

theorem foldBlocks_go (f : OrchState → ContentBlock → OrchState × List Emitted)
    (s : OrchState) (e0 : List Emitted) (bs : List ContentBlock) :
    bs.foldl (fun acc b => ((f acc.1 b).1, acc.2 ++ (f acc.1 b).2)) (s, e0)
    = ((foldBlocks f s bs).1, e0 ++ (foldBlocks f s bs).2) := by
  induction bs generalizing s e0 with
  | nil => simp [foldBlocks]
  | cons b bs ih =>
      rw [foldBlocks_eq_foldl]
      simp only [List.foldl_cons]
      rw [ih ((f s b).1) (e0 ++ (f s b).2)]
      rw [ih ((f s b).1) ([] ++ (f s b).2)]
      simp

theorem foldBlocks_cons (f : OrchState → ContentBlock → OrchState × List Emitted)
    (s : OrchState) (b : ContentBlock) (bs : List ContentBlock) :
    foldBlocks f s (b :: bs)
      = ((foldBlocks f (f s b).1 bs).1, (f s b).2 ++ (foldBlocks f (f s b).1 bs).2) := by
  rw [foldBlocks_eq_foldl]
  simp only [List.foldl_cons]
  rw [foldBlocks_go]
  simp

theorem foldBlocks_seg (f : OrchState → ContentBlock → OrchState × List Emitted)
    (hf : ∀ s b, phaseSeg s (f s b).1 (f s b).2) (s : OrchState)
    (bs : List ContentBlock) :
    phaseSeg s (foldBlocks f s bs).1 (foldBlocks f s bs).2 := by
  induction bs generalizing s with
  | nil => exact phaseSeg_nil s
  | cons b bs ih =>
      rw [foldBlocks_cons]
      exact phaseSeg_append (hf s b) (ih (f s b).1)

theorem accumulateUsage_phase (parent : Option String) (s : OrchState)
    (usage : Option ApiUsage) :
    (accumulateUsage parent s usage).currentPhase = s.currentPhase := by
  cases usage with
  | none => rfl
  | some u =>
      cases parent with
      | none => rfl
      | some pid =>
          by_cases hp : pid ≠ ""
          · rcases hm : mapGet { s with
                sessionTokens := addUsage s.sessionTokens (some u) }.subagentTokens pid
              with _ | entry <;>
              simp [accumulateUsage, hp, hm]
          · simp [accumulateUsage, hp]

theorem emitUsageIfDue_silent (t : Int) (s : OrchState) :
    (emitUsageIfDue t s).1.currentPhase = s.currentPhase ∧
    phaseTrace (wireEvents (emitUsageIfDue t s).2) = [] := by
  by_cases h : t - s.lastUsageEmitTime < 5000 <;>
    simp [emitUsageIfDue, h, wireEvents, phaseTrace, usageSnapshot]

theorem processAssistantMsg_seg (t : Int) (config : AgentConfig) (s : OrchState)
    (parent : Option String) (content : List ContentBlock) (usage : Option ApiUsage) :
    phaseSeg s (processAssistantMsg t config s parent content usage).1
      (processAssistantMsg t config s parent content usage).2 := by
  have h0 : phaseSeg s (accumulateUsage parent s usage) [] :=
    phaseSeg_of_silent [] (accumulateUsage_phase parent s usage) rfl
  have h1 := foldBlocks_seg (processAssistantBlock parent t config)
    (fun s' b => processAssistantBlock_seg parent t config s' b)
    (accumulateUsage parent s usage) content
  have h2s := emitUsageIfDue_silent t
    (foldBlocks (processAssistantBlock parent t config)
      (accumulateUsage parent s usage) content).1
  have h2 : phaseSeg (foldBlocks (processAssistantBlock parent t config)
      (accumulateUsage parent s usage) content).1
      (emitUsageIfDue t (foldBlocks (processAssistantBlock parent t config)
        (accumulateUsage parent s usage) content).1).1
      (emitUsageIfDue t (foldBlocks (processAssistantBlock parent t config)
        (accumulateUsage parent s usage) content).1).2 :=
    phaseSeg_of_silent _ h2s.1 h2s.2
  have := phaseSeg_append (phaseSeg_append h0 h1) h2
  simpa [processAssistantMsg] using this

theorem processUserBlock_silent (t : Int) (s : OrchState) (b : ContentBlock) :
    (processUserBlock t s b).1.currentPhase = s.currentPhase ∧
    phaseTrace (wireEvents (processUserBlock t s b).2) = [] := by
  cases b with
  | toolResult tid =>
      cases tid with
      | none => exact ⟨rfl, rfl⟩
      | some rid =>
          by_cases hr : rid ≠ ""
          · rcases hm : mapGet s.taskMap rid with _ | subInfo
            · simp [processUserBlock, hr, hm, wireEvents, phaseTrace]
            · simp only [processUserBlock, hr, hm, if_pos, emitUsageIfDue]
              split_ifs <;>
                simp [wireEvents, phaseTrace, mkProgress, usageSnapshot]
          · simp [processUserBlock, hr, wireEvents, phaseTrace]
  | text txt => exact ⟨rfl, rfl⟩
  | toolUse nm id input => exact ⟨rfl, rfl⟩
  | otherBlock => exact ⟨rfl, rfl⟩

theorem processUserMsg_seg (t : Int) (s : OrchState) (content : List ContentBlock) :
    phaseSeg s (processUserMsg t s content).1 (processUserMsg t s content).2 :=
  foldBlocks_seg (processUserBlock t)
    (fun s' b => phaseSeg_of_silent _ (processUserBlock_silent t s' b).1
      (processUserBlock_silent t s' b).2) s content

theorem runLoop_seg (config : AgentConfig) (stream : List Timed) :
    ∀ ls : LoopState, ∃ Δ,
      (loopStateOf (runLoop config ls stream)).events = ls.events ++ Δ ∧
      phaseSeg ls.st (loopStateOf (runLoop config ls stream)).st Δ := by
  induction stream with
  | nil =>
      intro ls
      exact ⟨[], by simp [runLoop, loopStateOf], phaseSeg_nil ls.st⟩
  | cons m rest ih =>
      intro ls
      cases m with
      | mk tm msg =>
          cases msg with
          | systemInit =>
              obtain ⟨Δ, h1, h2⟩ := ih ls
              exact ⟨Δ, by simpa [runLoop, processMessage] using h1,
                by simpa [runLoop, processMessage] using h2⟩
          | assistant parent content usage =>
              obtain ⟨Δ, h1, h2⟩ := ih
                { ls with
                  st := (processAssistantMsg tm config ls.st parent content usage).1
                  events := ls.events
                    ++ (processAssistantMsg tm config ls.st parent content usage).2 }
              refine ⟨(processAssistantMsg tm config ls.st parent content usage).2 ++ Δ, ?_, ?_⟩
              · rw [show runLoop config ls (⟨tm, .assistant parent content usage⟩ :: rest)
                  = runLoop config
                    { ls with
                      st := (processAssistantMsg tm config ls.st parent content usage).1
                      events := ls.events
                        ++ (processAssistantMsg tm config ls.st parent content usage).2 }
                    rest from rfl]
                rw [h1]
                simp
              · rw [show runLoop config ls (⟨tm, .assistant parent content usage⟩ :: rest)
                  = runLoop config
                    { ls with
                      st := (processAssistantMsg tm config ls.st parent content usage).1
                      events := ls.events
                        ++ (processAssistantMsg tm config ls.st parent content usage).2 }
                    rest from rfl]
                exact phaseSeg_append
                  (processAssistantMsg_seg tm config ls.st parent content usage) h2
          | user content =>
              obtain ⟨Δ, h1, h2⟩ := ih
                { ls with
                  st := (processUserMsg tm ls.st content).1
                  events := ls.events ++ (processUserMsg tm ls.st content).2 }
              refine ⟨(processUserMsg tm ls.st content).2 ++ Δ, ?_, ?_⟩
              · rw [show runLoop config ls (⟨tm, .user content⟩ :: rest)
                  = runLoop config
                    { ls with
                      st := (processUserMsg tm ls.st content).1
                      events := ls.events ++ (processUserMsg tm ls.st content).2 }
                    rest from rfl]
                rw [h1]
                simp
              · rw [show runLoop config ls (⟨tm, .user content⟩ :: rest)
                  = runLoop config
                    { ls with
                      st := (processUserMsg tm ls.st content).1
                      events := ls.events ++ (processUserMsg tm ls.st content).2 }
                    rest from rfl]
                exact phaseSeg_append (processUserMsg_seg tm ls.st content) h2
          | resultSuccess result cost =>
              obtain ⟨Δ, h1, h2⟩ := ih { ls with finalResult := result, totalCostUsd := cost }
              exact ⟨Δ, by simpa [runLoop, processMessage] using h1,
                by simpa [runLoop, processMessage] using h2⟩
          | resultFailure subtype errors cost =>
              refine ⟨[], ?_, ?_⟩
              · simp [runLoop, processMessage, loopStateOf]
              · exact phaseSeg_nil ls.st
          | otherMessage =>
              obtain ⟨Δ, h1, h2⟩ := ih ls
              exact ⟨Δ, by simpa [runLoop, processMessage] using h1,
                by simpa [runLoop, processMessage] using h2⟩

/-- **C1 (amended).** For every engine stream and engine ending, every
adjacent pair `(a, b)` of phases carried by the emitted `phase` events
satisfies `phaseIdx a ≤ phaseIdx b` or `a = synthesizing ∧ b =
analyzing`: the machine only moves forward in the fixed order except
that a (repeated) senior-developer delegation re-enters analyzing, which
steps backward when it happens after synthesizing. -/
theorem phaseTrace_steps (config : AgentConfig) (t0 : Int) (stream : List Timed)
    (engineEnd : EngineEnd) (tEnd : Int) :
    List.Chain' phaseStepOk
      (phaseTrace (wireEvents (runReviewModel config t0 stream engineEnd tEnd).1)) := by
  obtain ⟨Δ, hev, hseg⟩ := runLoop_seg config stream (initLoopState t0)
  have hinit : phaseTrace (wireEvents (initLoopState t0).events) = [.understanding] := rfl
  have hup : (initLoopState t0).st.currentPhase = .understanding := rfl
  have hchain : List.Chain' phaseStepOk
      (.understanding :: phaseTrace (wireEvents Δ)) := by
    have := hseg.1
    rwa [hup] at this
  have key : ∀ tail : List Emitted, phaseTrace (wireEvents tail) = [] →
      List.Chain' phaseStepOk (phaseTrace (wireEvents
        ((loopStateOf (runLoop config (initLoopState t0) stream)).events ++ tail))) := by
    intro tail htail
    rw [phaseTrace_append, htail, List.append_nil, hev, phaseTrace_append, hinit]
    exact hchain
  unfold runReviewModel
  rcases hr : runLoop config (initLoopState t0) stream with ⟨msg, t, ls⟩ | ls
  · have := key [{ event := .complete t .error (some msg) }] rfl
    rw [hr] at this
    simpa [loopStateOf] using this
  · cases engineEnd with
    | throws te em =>
        have := key [{ event := .complete te .error (some (em.getD "Unknown error")) }] rfl
        rw [hr] at this
        simpa [loopStateOf] using this
    | finishes =>
        have := key [{ event := .progress tEnd 100 "Review complete!" },
          { event := .complete tEnd .completed none }] rfl
        rw [hr] at this
        simpa [loopStateOf] using this

/-- **C1 (counterexample).** A stream in which the lead delegates the
senior developer, receives its result, writes text (entering
synthesizing), then delegates the senior developer again produces the
phase-event sequence understanding, analyzing, synthesizing, analyzing —
which is not monotone in the fixed phase order. -/
theorem phaseMonotone_counterexample :
    phaseTrace (wireEvents (runReviewModel demoConfig 999000 c1Stream .finishes 1004000).1)
      = [.understanding, .analyzing, .synthesizing, .analyzing] ∧
    ¬ List.Chain' (fun a b => phaseIdx a ≤ phaseIdx b)
      (phaseTrace (wireEvents (runReviewModel demoConfig 999000 c1Stream .finishes 1004000).1)) := by
  have h : phaseTrace (wireEvents (runReviewModel demoConfig 999000 c1Stream .finishes 1004000).1)
      = [.understanding, .analyzing, .synthesizing, .analyzing] := by
    with_unfolding_all rfl
  refine ⟨h, ?_⟩
  rw [h]
  intro hch
  simp only [List.chain'_cons, phaseIdx] at hch
  omega

/-! ### C3 — explorer completions never exceed delegations -/

theorem c3Inv_mono {s : OrchState} {seen seen' : Finset String} (hsub : seen ⊆ seen')
    (h : c3Inv s seen) : c3Inv s seen' := by
  unfold c3Inv at h ⊢
  refine le_trans (Nat.add_le_add_left (Finset.card_le_card ?_) _) h
  intro k hk
  simp only [explorerPending, Finset.mem_filter] at hk ⊢
  exact ⟨hk.1, hk.2.1, fun hc => hk.2.2 (hsub hc)⟩

theorem explorerPending_set_explorer (tm : List (String × TaskInfo))
    (seen : Finset String) (id : String) {info : TaskInfo}
    (_hinfo : info.agentType = "codebase-explorer") :
    explorerPending (mapSet tm id info) seen ⊆ insert id (explorerPending tm seen) := by
  intro k hk
  simp only [explorerPending, Finset.mem_filter, keys_mapSet, Finset.mem_insert,
    mapGet_mapSet] at hk
  by_cases hki : k = id
  · rw [hki]
    exact Finset.mem_insert_self _ _
  · rcases hk with ⟨hk1, hk2, hk3⟩
    rcases hk1 with h | h
    · exact absurd h hki
    · refine Finset.mem_insert.mpr (Or.inr ?_)
      simp only [explorerPending, Finset.mem_filter]
      rw [if_neg hki] at hk2
      exact ⟨h, hk2, hk3⟩

theorem explorerPending_set_other (tm : List (String × TaskInfo))
    (seen : Finset String) (id : String) {info : TaskInfo}
    (hinfo : ¬ info.agentType = "codebase-explorer") :
    explorerPending (mapSet tm id info) seen ⊆ explorerPending tm seen := by
  intro k hk
  simp only [explorerPending, Finset.mem_filter, keys_mapSet, Finset.mem_insert,
    mapGet_mapSet] at hk
  rcases hk with ⟨hk1, hk2, hk3⟩
  by_cases hki : k = id
  · rw [if_pos hki] at hk2
    simp [isExplorerEntry, hinfo] at hk2
  · rw [if_neg hki] at hk2
    rcases hk1 with h | h
    · exact absurd h hki
    · simp only [explorerPending, Finset.mem_filter]
      exact ⟨h, hk2, hk3⟩

theorem stageTask_c3Inv (t : Int) (config : AgentConfig) (s : OrchState)
    (b : ContentBlock) (seen : Finset String) (h : c3Inv s seen) :
    c3Inv (stageTask t config s b).1 seen := by
  cases b with
  | toolUse nm id input =>
      by_cases hn : nm = "Task"
      · by_cases he : input.subagent_type.getD "unknown" = "codebase-explorer"
        · have hinfo : (TaskInfo.mk (input.subagent_type.getD "unknown")
              (input.description.getD "")).agentType = "codebase-explorer" := he
          have hsub := explorerPending_set_explorer s.taskMap seen id hinfo
          have hcard : (explorerPending (mapSet s.taskMap id
              (TaskInfo.mk (input.subagent_type.getD "unknown")
                (input.description.getD ""))) seen).card
              ≤ (explorerPending s.taskMap seen).card + 1 :=
            le_trans (Finset.card_le_card hsub) (Finset.card_insert_le _ _)
          simp only [stageTask, if_pos hn]
          rw [if_pos he]
          unfold c3Inv at h ⊢
          split_ifs <;> (dsimp only; omega)
        · have hinfo : ¬ (TaskInfo.mk (input.subagent_type.getD "unknown")
              (input.description.getD "")).agentType = "codebase-explorer" := he
          have hsub := explorerPending_set_other s.taskMap seen id hinfo
          have hcard := Finset.card_le_card hsub
          by_cases hs : input.subagent_type.getD "unknown" = "senior-developer"
          · simp only [stageTask, if_pos hn]
            rw [if_neg he, if_pos hs]
            unfold c3Inv at h ⊢
            dsimp only
            omega
          · simp only [stageTask, if_pos hn]
            rw [if_neg he, if_neg hs]
            unfold c3Inv at h ⊢
            dsimp only
            omega
      · simpa [stageTask, hn] using h
  | text txt => simpa [stageTask] using h
  | toolResult tid => simpa [stageTask] using h
  | otherBlock => simpa [stageTask] using h

theorem c3Inv_congr {s s' : OrchState} {seen : Finset String}
    (h1 : s'.taskMap = s.taskMap) (h2 : s'.completedExplorers = s.completedExplorers)
    (h3 : s'.totalExplorers = s.totalExplorers) (h : c3Inv s seen) : c3Inv s' seen := by
  unfold c3Inv at h ⊢
  rw [h1, h2, h3]
  exact h

theorem stageText_c3fields (parent : Option String) (t : Int) (s : OrchState)
    (b : ContentBlock) :
    (stageText parent t s b).1.taskMap = s.taskMap ∧
    (stageText parent t s b).1.completedExplorers = s.completedExplorers ∧
    (stageText parent t s b).1.totalExplorers = s.totalExplorers := by
  cases b with
  | text txt =>
      by_cases h1 : txt ≠ "" ∧ parent = none
      · by_cases h2 : s.seniorDevCompleted ∧ s.currentPhase ≠ .synthesizing <;>
          simp [stageText, h1, h2]
      · simp [stageText, h1]
  | toolUse nm id input => exact ⟨rfl, rfl, rfl⟩
  | toolResult tid => exact ⟨rfl, rfl, rfl⟩
  | otherBlock => exact ⟨rfl, rfl, rfl⟩

theorem stageActivity_c3fields (parent : Option String) (t : Int) (s : OrchState)
    (b : ContentBlock) :
    (stageActivity parent t s b).1.taskMap = s.taskMap ∧
    (stageActivity parent t s b).1.completedExplorers = s.completedExplorers ∧
    (stageActivity parent t s b).1.totalExplorers = s.totalExplorers := by
  cases b with
  | toolUse nm id input =>
      cases parent with
      | none => exact ⟨rfl, rfl, rfl⟩
      | some pid =>
          by_cases hp : pid ≠ ""
          · by_cases hg : t - (mapGet s.activityThrottle pid).getD 0 ≥ 1000
            · by_cases hd : activityDetail nm input ≠ "" <;>
                simp [stageActivity, hp, hg, hd]
            · simp [stageActivity, hp, hg]
          · simp [stageActivity, hp]
  | text txt => exact ⟨rfl, rfl, rfl⟩
  | toolResult tid => exact ⟨rfl, rfl, rfl⟩
  | otherBlock => exact ⟨rfl, rfl, rfl⟩

theorem accumulateUsage_c3fields (parent : Option String) (s : OrchState)
    (usage : Option ApiUsage) :
    (accumulateUsage parent s usage).taskMap = s.taskMap ∧
    (accumulateUsage parent s usage).completedExplorers = s.completedExplorers ∧
    (accumulateUsage parent s usage).totalExplorers = s.totalExplorers := by
  cases usage with
  | none => exact ⟨rfl, rfl, rfl⟩
  | some u =>
      cases parent with
      | none => exact ⟨rfl, rfl, rfl⟩
      | some pid =>
          by_cases hp : pid ≠ ""
          · rcases hm : mapGet { s with
                sessionTokens := addUsage s.sessionTokens (some u) }.subagentTokens pid
              with _ | entry <;>
              simp [accumulateUsage, hp, hm]
          · simp [accumulateUsage, hp]

theorem emitUsageIfDue_c3fields (t : Int) (s : OrchState) :
    (emitUsageIfDue t s).1.taskMap = s.taskMap ∧
    (emitUsageIfDue t s).1.completedExplorers = s.completedExplorers ∧
    (emitUsageIfDue t s).1.totalExplorers = s.totalExplorers := by
  by_cases h : t - s.lastUsageEmitTime < 5000 <;> simp [emitUsageIfDue, h]

theorem processAssistantBlock_c3Inv (parent : Option String) (t : Int)
    (config : AgentConfig) (s : OrchState) (b : ContentBlock) (seen : Finset String)
    (h : c3Inv s seen) :
    c3Inv (processAssistantBlock parent t config s b).1 seen := by
  have h1 := stageText_c3fields parent t s b
  have h2 := stageTask_c3Inv t config (stageText parent t s b).1 b seen
    (c3Inv_congr h1.1 h1.2.1 h1.2.2 h)
  have h3 := stageActivity_c3fields parent t
    (stageTask t config (stageText parent t s b).1 b).1 b
  exact c3Inv_congr h3.1 h3.2.1 h3.2.2 h2

theorem assistantBlocks_c3Inv (parent : Option String) (t : Int) (config : AgentConfig) :
    ∀ (content : List ContentBlock) (s : OrchState) (seen : Finset String),
      c3Inv s seen →
      c3Inv (foldBlocks (processAssistantBlock parent t config) s content).1 seen := by
  intro content
  induction content with
  | nil => intro s seen h; exact h
  | cons b bs ih =>
      intro s seen h
      rw [foldBlocks_cons]
      exact ih _ seen (processAssistantBlock_c3Inv parent t config s b seen h)

theorem processAssistantMsg_c3Inv (t : Int) (config : AgentConfig) (s : OrchState)
    (parent : Option String) (content : List ContentBlock) (usage : Option ApiUsage)
    (seen : Finset String) (h : c3Inv s seen) :
    c3Inv (processAssistantMsg t config s parent content usage).1 seen := by
  have h0 := accumulateUsage_c3fields parent s usage
  have h1 := assistantBlocks_c3Inv parent t config content (accumulateUsage parent s usage)
    seen (c3Inv_congr h0.1 h0.2.1 h0.2.2 h)
  have h2 := emitUsageIfDue_c3fields t
    (foldBlocks (processAssistantBlock parent t config)
      (accumulateUsage parent s usage) content).1
  exact c3Inv_congr h2.1 h2.2.1 h2.2.2 h1

theorem explorerPending_insert (tm : List (String × TaskInfo)) (seen : Finset String)
    (r : String) :
    explorerPending tm (insert r seen) = (explorerPending tm seen).erase r := by
  ext k
  simp only [explorerPending, Finset.mem_filter, Finset.mem_erase, Finset.mem_insert]
  constructor
  · rintro ⟨hk, he, hns⟩
    push_neg at hns
    exact ⟨hns.1, hk, he, hns.2⟩
  · rintro ⟨hne, hk, he, hns⟩
    exact ⟨hk, he, by push_neg; exact ⟨hne, hns⟩⟩

theorem processUserBlock_c3Inv_result (t : Int) (s : OrchState) (rid : String)
    (seen : Finset String) (hr : rid ≠ "") (hseen : rid ∉ seen) (h : c3Inv s seen) :
    c3Inv (processUserBlock t s (.toolResult (some rid))).1 (insert rid seen) := by
  rcases hm : mapGet s.taskMap rid with _ | subInfo
  · simp only [processUserBlock, if_pos hr, hm]
    exact c3Inv_mono (Finset.subset_insert _ _) h
  · by_cases he : subInfo.agentType = "codebase-explorer"
    · have hmem : rid ∈ explorerPending s.taskMap seen := by
        simp only [explorerPending, Finset.mem_filter]
        exact ⟨mapGet_mem_keys _ _ _ hm, by simp [isExplorerEntry, hm, he], hseen⟩
      have hcard := Finset.card_erase_add_one hmem
      simp only [processUserBlock, if_pos hr, hm, he, if_pos rfl]
      have hfields := emitUsageIfDue_c3fields t
        { { s with completedExplorers := s.completedExplorers + 1 } with
            lastUsageEmitTime := 0 }
      refine c3Inv_congr hfields.1 hfields.2.1 hfields.2.2 ?_
      unfold c3Inv at h ⊢
      dsimp only
      rw [explorerPending_insert]
      omega
    · by_cases hs : subInfo.agentType = "senior-developer"
      · simp only [processUserBlock, if_pos hr, hm, he, if_neg he, hs, if_pos rfl]
        have hfields := emitUsageIfDue_c3fields t
          { { s with seniorDevCompleted := true } with lastUsageEmitTime := 0 }
        refine c3Inv_congr hfields.1 hfields.2.1 hfields.2.2 ?_
        exact c3Inv_mono (Finset.subset_insert _ _) h
      · simp only [processUserBlock, if_pos hr, hm, if_neg he, if_neg hs]
        have hfields := emitUsageIfDue_c3fields t { s with lastUsageEmitTime := 0 }
        refine c3Inv_congr hfields.1 hfields.2.1 hfields.2.2 ?_
        exact c3Inv_mono (Finset.subset_insert _ _) h

theorem userBlocks_c3Inv (t : Int) :
    ∀ (content : List ContentBlock) (s : OrchState) (seen : Finset String),
      c3Inv s seen → (blockResultIds content).Nodup →
      (∀ r ∈ blockResultIds content, r ∉ seen) →
      c3Inv (foldBlocks (processUserBlock t) s content).1
        (seen ∪ (blockResultIds content).toFinset) := by
  intro content
  induction content with
  | nil =>
      intro s seen h _ _
      simpa [blockResultIds] using h
  | cons b bs ih =>
      intro s seen h hnd hfresh
      rw [foldBlocks_cons]
      cases b with
      | toolResult tid =>
          cases tid with
          | none =>
              have hids : blockResultIds (ContentBlock.toolResult none :: bs)
                  = blockResultIds bs := by simp [blockResultIds]
              rw [hids] at hnd hfresh ⊢
              exact ih s seen h hnd hfresh
          | some rid =>
              by_cases hr : rid ≠ ""
              · have hids : blockResultIds (ContentBlock.toolResult (some rid) :: bs)
                    = rid :: blockResultIds bs := by simp [blockResultIds, hr]
                rw [hids] at hnd hfresh ⊢
                have hnd' := List.nodup_cons.mp hnd
                have hstep := processUserBlock_c3Inv_result t s rid seen hr
                  (hfresh rid (by simp)) h
                have hrest := ih (processUserBlock t s (.toolResult (some rid))).1
                  (insert rid seen) hstep hnd'.2
                  (fun r hrmem => by
                    simp only [Finset.mem_insert, not_or]
                    exact ⟨fun hc => hnd'.1 (hc ▸ hrmem),
                      hfresh r (List.mem_cons_of_mem _ hrmem)⟩)
                have hset : insert rid seen ∪ (blockResultIds bs).toFinset
                    = seen ∪ (rid :: blockResultIds bs).toFinset := by
                  simp [Finset.insert_union, Finset.union_insert]
                rwa [hset] at hrest
              · have hids : blockResultIds (ContentBlock.toolResult (some rid) :: bs)
                    = blockResultIds bs := by simp [blockResultIds, hr]
                rw [hids] at hnd hfresh ⊢
                have hsb : processUserBlock t s (.toolResult (some rid)) = (s, []) := by
                  simp [processUserBlock, hr]
                rw [hsb]
                exact ih s seen h hnd hfresh
      | text txt =>
          have hids : blockResultIds (ContentBlock.text txt :: bs)
              = blockResultIds bs := by simp [blockResultIds]
          rw [hids] at hnd hfresh ⊢
          exact ih s seen h hnd hfresh
      | toolUse nm id input =>
          have hids : blockResultIds (ContentBlock.toolUse nm id input :: bs)
              = blockResultIds bs := by simp [blockResultIds]
          rw [hids] at hnd hfresh ⊢
          exact ih s seen h hnd hfresh
      | otherBlock =>
          have hids : blockResultIds (ContentBlock.otherBlock :: bs)
              = blockResultIds bs := by simp [blockResultIds]
          rw [hids] at hnd hfresh ⊢
          exact ih s seen h hnd hfresh

theorem runLoop_c3Inv (config : AgentConfig) :
    ∀ (stream : List Timed) (ls : LoopState) (seen : Finset String),
      c3Inv ls.st seen → (streamResultIds stream).Nodup →
      (∀ r ∈ streamResultIds stream, r ∉ seen) →
      c3Inv (loopStateOf (runLoop config ls stream)).st
        (seen ∪ (streamResultIds stream).toFinset) := by
  intro stream
  induction stream with
  | nil =>
      intro ls seen h _ _
      simpa [runLoop, loopStateOf, streamResultIds] using h
  | cons m rest ih =>
      intro ls seen h hnd hfresh
      cases m with
      | mk tm msg =>
          cases msg with
          | systemInit =>
              have hids : streamResultIds (⟨tm, .systemInit⟩ :: rest)
                  = streamResultIds rest := by simp [streamResultIds, msgResultIds]
              rw [hids] at hnd hfresh ⊢
              exact ih ls seen h hnd hfresh
          | otherMessage =>
              have hids : streamResultIds (⟨tm, .otherMessage⟩ :: rest)
                  = streamResultIds rest := by simp [streamResultIds, msgResultIds]
              rw [hids] at hnd hfresh ⊢
              exact ih ls seen h hnd hfresh
          | resultSuccess result cost =>
              have hids : streamResultIds (⟨tm, .resultSuccess result cost⟩ :: rest)
                  = streamResultIds rest := by simp [streamResultIds, msgResultIds]
              rw [hids] at hnd hfresh ⊢
              exact ih { ls with finalResult := result, totalCostUsd := cost } seen h
                hnd hfresh
          | resultFailure subtype errors cost =>
              refine c3Inv_mono Finset.subset_union_left ?_
              simpa [runLoop, processMessage, loopStateOf] using h
          | assistant parent content usage =>
              have hids : streamResultIds (⟨tm, .assistant parent content usage⟩ :: rest)
                  = streamResultIds rest := by simp [streamResultIds, msgResultIds]
              rw [hids] at hnd hfresh ⊢
              exact ih
                { ls with
                  st := (processAssistantMsg tm config ls.st parent content usage).1
                  events := ls.events
                    ++ (processAssistantMsg tm config ls.st parent content usage).2 }
                seen (processAssistantMsg_c3Inv tm config ls.st parent content usage seen h)
                hnd hfresh
          | user content =>
              have hids : streamResultIds (⟨tm, .user content⟩ :: rest)
                  = blockResultIds content ++ streamResultIds rest := by
                simp [streamResultIds, msgResultIds]
              rw [hids] at hnd hfresh ⊢
              have hnd1 : (blockResultIds content).Nodup := hnd.of_append_left
              have hnd2 : (streamResultIds rest).Nodup := hnd.of_append_right
              have hdisj := List.disjoint_of_nodup_append hnd
              have hstep := userBlocks_c3Inv tm content ls.st seen h hnd1
                (fun r hr => hfresh r (List.mem_append_left _ hr))
              have hrest := ih
                { ls with
                  st := (foldBlocks (processUserBlock tm) ls.st content).1
                  events := ls.events
                    ++ (foldBlocks (processUserBlock tm) ls.st content).2 }
                (seen ∪ (blockResultIds content).toFinset) hstep hnd2
                (fun r hr => by
                  simp only [Finset.mem_union, not_or, List.mem_toFinset]
                  exact ⟨hfresh r (List.mem_append_right _ hr),
                    fun hc => hdisj hc hr⟩)
              have hset : seen ∪ (blockResultIds content).toFinset
                    ∪ (streamResultIds rest).toFinset
                  = seen ∪ (blockResultIds content ++ streamResultIds rest).toFinset := by
                rw [List.toFinset_append, Finset.union_assoc]
              rw [← hset]
              exact hrest

/-- **C3 (amended).** For every stream in which no two `tool_result`
blocks carry the same (truthy) `tool_use_id`, the count of completed
explorer subtasks never exceeds the count of delegated explorer
subtasks, at every point of the run. -/
theorem completed_le_total (config : AgentConfig) (t0 : Int) (stream : List Timed)
    (h : (streamResultIds stream).Nodup) (n : Nat) :
    (loopAfter config t0 stream n).st.completedExplorers
      ≤ (loopAfter config t0 stream n).st.totalExplorers := by
  have hsplit : streamResultIds stream
      = streamResultIds (stream.take n) ++ streamResultIds (stream.drop n) := by
    rw [streamResultIds, streamResultIds, streamResultIds, ← List.flatMap_append,
      List.take_append_drop]
  have hn : (streamResultIds (stream.take n)).Nodup := by
    rw [hsplit] at h
    exact h.of_append_left
  have hinit : c3Inv (initLoopState t0).st ∅ := by
    unfold c3Inv explorerPending
    simp [initLoopState, initOrchState]
  have hinv := runLoop_c3Inv config (stream.take n) (initLoopState t0) ∅ hinit hn
    (fun r _ => Finset.not_mem_empty r)
  unfold c3Inv at hinv
  exact le_trans (Nat.le_add_right _ _) hinv

theorem completed_le_total_witness :
    (loopAfter demoConfig 999000 c2Stream 4).st.completedExplorers
      ≤ (loopAfter demoConfig 999000 c2Stream 4).st.totalExplorers :=
  completed_le_total demoConfig 999000 c2Stream (by with_unfolding_all decide) 4

/-- **C3 (counterexample).** With one delegated explorer and a stream
containing two `tool_result` blocks with the same `tool_use_id`, the
completion count reaches 2 while the delegation total is 1, violating
`completedExplorers ≤ totalExplorers`. -/
theorem completed_le_total_counterexample :
    (loopAfter demoConfig 999000 c3Stream 2).st.completedExplorers = 2 ∧
    (loopAfter demoConfig 999000 c3Stream 2).st.totalExplorers = 1 ∧
    ¬ ((loopAfter demoConfig 999000 c3Stream 2).st.completedExplorers
        ≤ (loopAfter demoConfig 999000 c3Stream 2).st.totalExplorers) := by
  have h1 : (loopAfter demoConfig 999000 c3Stream 2).st.completedExplorers = 2 := by
    with_unfolding_all rfl
  have h2 : (loopAfter demoConfig 999000 c3Stream 2).st.totalExplorers = 1 := by
    with_unfolding_all rfl
  refine ⟨h1, h2, ?_⟩
  rw [h1, h2]
  omega

/-! ### C8 — activity throttling -/

theorem activityTimes_append (e1 e2 : List Emitted) (k : String) :
    activityTimes (e1 ++ e2) k = activityTimes e1 k ++ activityTimes e2 k := by
  simp [activityTimes]

theorem throttleInv_mono {s : OrchState} {tr : List Emitted} {T T' : Int}
    (hT : T ≤ T') (h : throttleInv s tr T) : throttleInv s tr T' := by
  obtain ⟨h1, h2, h3⟩ := h
  exact ⟨h1, fun k v hv => ⟨le_trans (h2 k v hv).1 hT, (h2 k v hv).2⟩, h3⟩

theorem throttleInv_congr {s s' : OrchState} {tr Δ : List Emitted} {T : Int}
    (hthr : s'.activityThrottle = s.activityThrottle)
    (hΔ : ∀ k, activityTimes Δ k = [])
    (h : throttleInv s tr T) : throttleInv s' (tr ++ Δ) T := by
  obtain ⟨h1, h2, h3⟩ := h
  refine ⟨?_, ?_, ?_⟩
  · intro k
    rw [activityTimes_append, hΔ, List.append_nil]
    exact h1 k
  · intro k v hv
    rw [hthr] at hv
    rw [activityTimes_append, hΔ, List.append_nil]
    exact h2 k v hv
  · intro k hv
    rw [hthr] at hv
    rw [activityTimes_append, hΔ, List.append_nil]
    exact h3 k hv

theorem stageText_thr (parent : Option String) (t : Int) (s : OrchState)
    (b : ContentBlock) :
    (stageText parent t s b).1.activityThrottle = s.activityThrottle ∧
    ∀ k, activityTimes (stageText parent t s b).2 k = [] := by
  cases b with
  | text txt =>
      by_cases h1 : txt ≠ "" ∧ parent = none
      · by_cases h2 : s.seniorDevCompleted ∧ s.currentPhase ≠ .synthesizing <;>
          simp [stageText, h1, h2, activityTimes, mkProgress]
      · simp [stageText, h1, activityTimes]
  | toolUse nm id input => exact ⟨rfl, fun k => rfl⟩
  | toolResult tid => exact ⟨rfl, fun k => rfl⟩
  | otherBlock => exact ⟨rfl, fun k => rfl⟩

theorem stageTask_thr (t : Int) (config : AgentConfig) (s : OrchState)
    (b : ContentBlock) :
    (stageTask t config s b).1.activityThrottle = s.activityThrottle ∧
    ∀ k, activityTimes (stageTask t config s b).2 k = [] := by
  cases b with
  | toolUse nm id input =>
      by_cases hn : nm = "Task"
      · by_cases he : input.subagent_type.getD "unknown" = "codebase-explorer"
        · by_cases hu : s.currentPhase = .understanding <;>
            (simp only [stageTask, if_pos hn]; rw [if_pos he]) <;>
            simp [hu, activityTimes, mkProgress]
        · by_cases hs : input.subagent_type.getD "unknown" = "senior-developer" <;>
            (simp only [stageTask, if_pos hn]; rw [if_neg he]) <;>
            simp [hs, activityTimes, mkProgress]
      · simp [stageTask, hn, activityTimes]
  | text txt => exact ⟨rfl, fun k => rfl⟩
  | toolResult tid => exact ⟨rfl, fun k => rfl⟩
  | otherBlock => exact ⟨rfl, fun k => rfl⟩

theorem processUserBlock_thr (t : Int) (s : OrchState) (b : ContentBlock) :
    (processUserBlock t s b).1.activityThrottle = s.activityThrottle ∧
    ∀ k, activityTimes (processUserBlock t s b).2 k = [] := by
  cases b with
  | toolResult tid =>
      cases tid with
      | none => exact ⟨rfl, fun k => rfl⟩
      | some rid =>
          by_cases hr : rid ≠ ""
          · rcases hm : mapGet s.taskMap rid with _ | subInfo
            · simp [processUserBlock, hr, hm, activityTimes]
            · simp only [processUserBlock, if_pos hr, hm, emitUsageIfDue]
              split_ifs <;>
                simp [activityTimes, mkProgress, usageSnapshot]
          · simp [processUserBlock, hr, activityTimes]
  | text txt => exact ⟨rfl, fun k => rfl⟩
  | toolUse nm id input => exact ⟨rfl, fun k => rfl⟩
  | otherBlock => exact ⟨rfl, fun k => rfl⟩

theorem accumulateUsage_thr (parent : Option String) (s : OrchState)
    (usage : Option ApiUsage) :
    (accumulateUsage parent s usage).activityThrottle = s.activityThrottle := by
  cases usage with
  | none => rfl
  | some u =>
      cases parent with
      | none => rfl
      | some pid =>
          by_cases hp : pid ≠ ""
          · rcases hm : mapGet { s with
                sessionTokens := addUsage s.sessionTokens (some u) }.subagentTokens pid
              with _ | entry <;>
              simp [accumulateUsage, hp, hm]
          · simp [accumulateUsage, hp]

theorem emitUsageIfDue_thr (t : Int) (s : OrchState) :
    (emitUsageIfDue t s).1.activityThrottle = s.activityThrottle ∧
    ∀ k, activityTimes (emitUsageIfDue t s).2 k = [] := by
  by_cases h : t - s.lastUsageEmitTime < 5000 <;>
    simp [emitUsageIfDue, h, activityTimes, usageSnapshot]

theorem mem_of_mem_getLast' {α : Type} {l : List α} {x : α} (h : x ∈ l.getLast?) :
    x ∈ l := by
  obtain ⟨hne, rfl⟩ := List.mem_getLast?_eq_getLast h
  exact List.getLast_mem hne

theorem stageActivity_throttleInv (parent : Option String) (t : Int) (s : OrchState)
    (b : ContentBlock) (tr : List Emitted) (h : throttleInv s tr t) :
    throttleInv (stageActivity parent t s b).1
      (tr ++ (stageActivity parent t s b).2) t := by
  obtain ⟨h1, h2, h3⟩ := h
  cases b with
  | text txt => exact throttleInv_congr rfl (fun k => rfl) ⟨h1, h2, h3⟩
  | toolResult tid => exact throttleInv_congr rfl (fun k => rfl) ⟨h1, h2, h3⟩
  | otherBlock => exact throttleInv_congr rfl (fun k => rfl) ⟨h1, h2, h3⟩
  | toolUse nm id input =>
      cases parent with
      | none => exact throttleInv_congr rfl (fun k => rfl) ⟨h1, h2, h3⟩
      | some pid =>
          by_cases hp : pid ≠ ""
          · by_cases hg : t - (mapGet s.activityThrottle pid).getD 0 ≥ 1000
            · -- gate open: the stored time becomes `t`, an activity event is
              -- emitted exactly when the tool detail is non-empty
              have hgate : ∀ te ∈ activityTimes tr pid, te + 1000 ≤ t := by
                intro te hte
                rcases hv : mapGet s.activityThrottle pid with _ | v
                · rw [h3 pid hv] at hte
                  exact absurd hte (List.not_mem_nil te)
                · have hb := h2 pid v hv
                  have hle : te ≤ v := hb.2 te hte
                  rw [hv] at hg
                  simp only [Option.getD_some] at hg
                  omega
              by_cases hd : activityDetail nm input ≠ ""
              · simp only [stageActivity, if_pos hp, if_pos hg, if_pos hd]
                refine ⟨?_, ?_, ?_⟩
                · intro k
                  rw [activityTimes_append]
                  by_cases hk : k = pid
                  · subst hk
                    have hΔ : activityTimes
                        [{ event := .activity t
                            (((mapGet s.taskMap k).map (·.agentType)).getD "unknown")
                            nm (activityDetail nm input), key := some k }] k = [t] := by
                      simp [activityTimes]
                    rw [hΔ, List.chain'_append]
                    refine ⟨h1 k, List.chain'_singleton _, ?_⟩
                    intro x hx y hy
                    have hxm : x ∈ activityTimes tr k := mem_of_mem_getLast' hx
                    have hym : t = y := by simpa using hy
                    rw [← hym]
                    exact hgate x hxm
                  · have hΔ : activityTimes
                        [{ event := .activity t
                            (((mapGet s.taskMap pid).map (·.agentType)).getD "unknown")
                            nm (activityDetail nm input), key := some pid }] k = [] := by
                      have hpk : ¬ pid = k := fun hh => hk hh.symm
                      simp [activityTimes, hpk]
                    rw [hΔ, List.append_nil]
                    exact h1 k
                · intro k v hv
                  rw [activityTimes_append]
                  by_cases hk : k = pid
                  · subst hk
                    rw [mapGet_mapSet, if_pos rfl] at hv
                    have hvt : v = t := by simpa using hv.symm
                    subst hvt
                    refine ⟨le_refl _, ?_⟩
                    intro te hte
                    rw [List.mem_append] at hte
                    rcases hte with hte | hte
                    · have := hgate te hte
                      omega
                    · have : te = v := by simpa [activityTimes] using hte
                      omega
                  · rw [mapGet_mapSet, if_neg hk] at hv
                    have hΔ : activityTimes
                        [{ event := .activity t
                            (((mapGet s.taskMap pid).map (·.agentType)).getD "unknown")
                            nm (activityDetail nm input), key := some pid }] k = [] := by
                      have hpk : ¬ pid = k := fun hh => hk hh.symm
                      simp [activityTimes, hpk]
                    rw [hΔ, List.append_nil]
                    exact h2 k v hv
                · intro k hv
                  by_cases hk : k = pid
                  · subst hk
                    rw [mapGet_mapSet, if_pos rfl] at hv
                    exact absurd hv (by simp)
                  · rw [mapGet_mapSet, if_neg hk] at hv
                    rw [activityTimes_append]
                    have hΔ : activityTimes
                        [{ event := .activity t
                            (((mapGet s.taskMap pid).map (·.agentType)).getD "unknown")
                            nm (activityDetail nm input), key := some pid }] k = [] := by
                      have hpk : ¬ pid = k := fun hh => hk hh.symm
                      simp [activityTimes, hpk]
                    rw [hΔ, List.append_nil]
                    exact h3 k hv
              · simp only [stageActivity, if_pos hp, if_pos hg, if_neg hd]
                refine ⟨?_, ?_, ?_⟩
                · intro k
                  rw [activityTimes_append]
                  simpa [activityTimes] using h1 k
                · intro k v hv
                  rw [activityTimes_append]
                  simp only [activityTimes, List.filterMap_nil, List.append_nil]
                  by_cases hk : k = pid
                  · subst hk
                    rw [mapGet_mapSet, if_pos rfl] at hv
                    have hvt : v = t := by simpa using hv.symm
                    subst hvt
                    refine ⟨le_refl _, ?_⟩
                    intro te hte
                    have := hgate te hte
                    omega
                  · rw [mapGet_mapSet, if_neg hk] at hv
                    exact h2 k v hv
                · intro k hv
                  rw [activityTimes_append]
                  simp only [activityTimes, List.filterMap_nil, List.append_nil]
                  by_cases hk : k = pid
                  · subst hk
                    rw [mapGet_mapSet, if_pos rfl] at hv
                    exact absurd hv (by simp)
                  · rw [mapGet_mapSet, if_neg hk] at hv
                    exact h3 k hv
            · simp only [stageActivity, if_pos hp, if_neg hg]
              exact throttleInv_congr rfl (fun k => rfl) ⟨h1, h2, h3⟩
          · simp only [stageActivity, if_neg hp]
            exact throttleInv_congr rfl (fun k => rfl) ⟨h1, h2, h3⟩

theorem processAssistantBlock_throttleInv (parent : Option String) (t : Int)
    (config : AgentConfig) (s : OrchState) (b : ContentBlock) (tr : List Emitted)
    (h : throttleInv s tr t) :
    throttleInv (processAssistantBlock parent t config s b).1
      (tr ++ (processAssistantBlock parent t config s b).2) t := by
  have g1 := stageText_thr parent t s b
  have hA : throttleInv (stageText parent t s b).1 (tr ++ (stageText parent t s b).2) t :=
    throttleInv_congr g1.1 g1.2 h
  have g2 := stageTask_thr t config (stageText parent t s b).1 b
  have hB : throttleInv (stageTask t config (stageText parent t s b).1 b).1
      ((tr ++ (stageText parent t s b).2)
        ++ (stageTask t config (stageText parent t s b).1 b).2) t :=
    throttleInv_congr g2.1 g2.2 hA
  have hC := stageActivity_throttleInv parent t
    (stageTask t config (stageText parent t s b).1 b).1 b
    ((tr ++ (stageText parent t s b).2)
      ++ (stageTask t config (stageText parent t s b).1 b).2) hB
  have heq : ((tr ++ (stageText parent t s b).2)
        ++ (stageTask t config (stageText parent t s b).1 b).2)
      ++ (stageActivity parent t (stageTask t config (stageText parent t s b).1 b).1 b).2
      = tr ++ (processAssistantBlock parent t config s b).2 := by
    simp [processAssistantBlock]
  rw [heq] at hC
  exact hC

theorem assistantBlocks_throttleInv (parent : Option String) (t : Int)
    (config : AgentConfig) :
    ∀ (content : List ContentBlock) (s : OrchState) (tr : List Emitted),
      throttleInv s tr t →
      throttleInv (foldBlocks (processAssistantBlock parent t config) s content).1
        (tr ++ (foldBlocks (processAssistantBlock parent t config) s content).2) t := by
  intro content
  induction content with
  | nil =>
      intro s tr h
      simpa [foldBlocks] using h
  | cons b bs ih =>
      intro s tr h
      rw [foldBlocks_cons]
      have hstep := processAssistantBlock_throttleInv parent t config s b tr h
      have := ih (processAssistantBlock parent t config s b).1
        (tr ++ (processAssistantBlock parent t config s b).2) hstep
      simpa [List.append_assoc] using this

theorem processAssistantMsg_throttleInv (t : Int) (config : AgentConfig)
    (s : OrchState) (parent : Option String) (content : List ContentBlock)
    (usage : Option ApiUsage) (tr : List Emitted) (h : throttleInv s tr t) :
    throttleInv (processAssistantMsg t config s parent content usage).1
      (tr ++ (processAssistantMsg t config s parent content usage).2) t := by
  have h0 : throttleInv (accumulateUsage parent s usage) (tr ++ []) t :=
    throttleInv_congr (accumulateUsage_thr parent s usage) (fun k => rfl) h
  rw [List.append_nil] at h0
  have h1 := assistantBlocks_throttleInv parent t config content
    (accumulateUsage parent s usage) tr h0
  have g2 := emitUsageIfDue_thr t
    (foldBlocks (processAssistantBlock parent t config)
      (accumulateUsage parent s usage) content).1
  have h2 := throttleInv_congr g2.1 g2.2 h1
  simpa [processAssistantMsg, List.append_assoc] using h2

theorem userBlocks_throttleInv (t : Int) :
    ∀ (content : List ContentBlock) (s : OrchState) (tr : List Emitted),
      throttleInv s tr t →
      throttleInv (foldBlocks (processUserBlock t) s content).1
        (tr ++ (foldBlocks (processUserBlock t) s content).2) t := by
  intro content
  induction content with
  | nil =>
      intro s tr h
      simpa [foldBlocks] using h
  | cons b bs ih =>
      intro s tr h
      rw [foldBlocks_cons]
      have g := processUserBlock_thr t s b
      have hstep := throttleInv_congr g.1 g.2 h
      have := ih (processUserBlock t s b).1 (tr ++ (processUserBlock t s b).2) hstep
      simpa [List.append_assoc] using this

theorem runLoop_throttleInv (config : AgentConfig) :
    ∀ (stream : List Timed) (ls : LoopState) (T : Int),
      throttleInv ls.st ls.events T →
      List.Pairwise (· ≤ ·) (stream.map (·.time)) →
      (∀ m ∈ stream, T ≤ m.time) →
      ∀ k, List.Chain' (fun a b => a + 1000 ≤ b)
        (activityTimes (loopStateOf (runLoop config ls stream)).events k) := by
  intro stream
  induction stream with
  | nil =>
      intro ls T h _ _ k
      exact h.1 k
  | cons m rest ih =>
      intro ls T h hpw hge k
      have hTm : T ≤ m.time := hge m (List.mem_cons_self _ _)
      have hm : throttleInv ls.st ls.events m.time := throttleInv_mono hTm h
      have hpw' : List.Pairwise (· ≤ ·) (rest.map (·.time)) := by
        rw [List.map_cons] at hpw
        exact hpw.of_cons
      have hge' : ∀ m' ∈ rest, m.time ≤ m'.time := by
        rw [List.map_cons] at hpw
        intro m' hm'
        exact (List.pairwise_cons.mp hpw).1 _ (List.mem_map_of_mem _ hm')
      cases m with
      | mk tm msg =>
          cases msg with
          | systemInit => exact ih ls tm hm hpw' hge' k
          | otherMessage => exact ih ls tm hm hpw' hge' k
          | resultSuccess result cost =>
              exact ih { ls with finalResult := result, totalCostUsd := cost } tm hm
                hpw' hge' k
          | resultFailure subtype errors cost =>
              exact hm.1 k
          | assistant parent content usage =>
              exact ih
                { ls with
                  st := (processAssistantMsg tm config ls.st parent content usage).1
                  events := ls.events
                    ++ (processAssistantMsg tm config ls.st parent content usage).2 }
                tm (processAssistantMsg_throttleInv tm config ls.st parent content usage
                  ls.events hm) hpw' hge' k
          | user content =>
              exact ih
                { ls with
                  st := (foldBlocks (processUserBlock tm) ls.st content).1
                  events := ls.events
                    ++ (foldBlocks (processUserBlock tm) ls.st content).2 }
                tm (userBlocks_throttleInv tm content ls.st ls.events hm) hpw' hge' k

/-- **C8.** For every input stream processed at non-decreasing wall-clock
times and every subtask correlation id `k`, any two consecutive
`activity` events emitted for `k` are at least 1000 ms apart; an
invocation arriving inside the window is dropped, not queued. -/
theorem activityThrottle_spec (config : AgentConfig) (t0 : Int) (stream : List Timed)
    (engineEnd : EngineEnd) (tEnd : Int) (k : String)
    (hmono : List.Pairwise (· ≤ ·) (stream.map (·.time))) :
    List.Chain' (fun a b => a + 1000 ≤ b)
      (activityTimes (runReviewModel config t0 stream engineEnd tEnd).1 k) := by
  have hinit : ∀ T : Int, throttleInv (initLoopState t0).st (initLoopState t0).events T := by
    intro T
    refine ⟨?_, ?_, ?_⟩
    · intro k'
      show List.Chain' _ (activityTimes _ k')
      have : activityTimes (initLoopState t0).events k' = [] := rfl
      rw [this]
      exact List.chain'_nil
    · intro k' v hv
      exact absurd hv (by simp [initLoopState, initOrchState, mapGet])
    · intro k' _
      rfl
  have hloop : List.Chain' (fun a b => a + 1000 ≤ b)
      (activityTimes (loopStateOf (runLoop config (initLoopState t0) stream)).events k) := by
    cases stream with
    | nil =>
        show List.Chain' _ (activityTimes (initLoopState t0).events k)
        have : activityTimes (initLoopState t0).events k = [] := rfl
        rw [this]
        exact List.chain'_nil
    | cons m rest =>
        refine runLoop_throttleInv config (m :: rest) (initLoopState t0) m.time
          (hinit m.time) hmono ?_ k
        intro m' hm'
        rcases List.mem_cons.mp hm' with h | h
        · rw [h]
        · rw [List.map_cons] at hmono
          exact (List.pairwise_cons.mp hmono).1 _ (List.mem_map_of_mem _ h)
  unfold runReviewModel
  rcases hr : runLoop config (initLoopState t0) stream with ⟨msg, te, ls⟩ | ls
  · rw [hr] at hloop
    simpa [loopStateOf, activityTimes_append, activityTimes] using hloop
  · rw [hr] at hloop
    cases engineEnd with
    | throws tthrow em =>
        simpa [loopStateOf, activityTimes_append, activityTimes] using hloop
    | finishes =>
        simpa [loopStateOf, activityTimes_append, activityTimes] using hloop

theorem activityThrottle_spec_witness :
    List.Chain' (fun a b => a + 1000 ≤ b)
      (activityTimes (runReviewModel demoConfig 999000 c8Stream .finishes 1003000).1 "e1") :=
  activityThrottle_spec demoConfig 999000 c8Stream .finishes 1003000 "e1" (by
    simp [c8Stream, List.pairwise_cons])

/-! ### C10 — ineligible tool invocations and the throttle timestamp -/

/-- **C10 (counterexample).** An ineligible (`Bash`) invocation arriving
inside the throttle window leaves the stored timestamp unchanged (still
1002000, not 1002500), and the eligible `Read` arriving 600 ms after it
is emitted rather than dropped. -/
theorem ineligible_updates_counterexample :
    mapGet (loopAfter demoConfig 999000 c10Stream 3).st.activityThrottle "e1"
      = some 1002000 ∧
    activityTimes (loopAfter demoConfig 999000 c10Stream 4).events "e1"
      = [1002000, 1003100] := by
  constructor
  · with_unfolding_all rfl
  · with_unfolding_all rfl

/-- **C10 (amended).** A subtask tool invocation whose tool is not an
eligible Read/Grep/Glob (or lacks the corresponding detail field),
processed while the throttle gate is open, emits no `activity` event but
still updates the stored throttle timestamp to the current time, so any
subtask tool invocation for the same correlation id within the following
1000 ms emits no `activity` event either; processed while the gate is
closed, it leaves the stored timestamp unchanged. -/
theorem processAssistantBlock_toolUse (parent : Option String) (t : Int)
    (config : AgentConfig) (s : OrchState) (nm id : String) (input : ToolInput) :
    processAssistantBlock parent t config s (.toolUse nm id input)
      = ((stageActivity parent t (stageTask t config s (.toolUse nm id input)).1
            (.toolUse nm id input)).1,
         (stageTask t config s (.toolUse nm id input)).2
           ++ (stageActivity parent t (stageTask t config s (.toolUse nm id input)).1
                (.toolUse nm id input)).2) := rfl

/-- **C10 (amended).** A subtask tool invocation whose tool is not an
eligible Read/Grep/Glob (or lacks the corresponding detail field),
processed while the throttle gate is open, emits no `activity` event but
still updates the stored throttle timestamp to the current time, so any
subtask tool invocation for the same correlation id within the following
1000 ms emits no `activity` event either; processed while the gate is
closed, it leaves the stored timestamp unchanged. -/
theorem ineligible_throttle_spec (config : AgentConfig) (s : OrchState) (pid : String)
    (t : Int) (nm id : String) (input : ToolInput)
    (hp : pid ≠ "") (hd : activityDetail nm input = "") :
    ((t - (mapGet s.activityThrottle pid).getD 0 ≥ 1000) →
      (∀ k, activityTimes
        (processAssistantBlock (some pid) t config s (.toolUse nm id input)).2 k = []) ∧
      mapGet (processAssistantBlock (some pid) t config s
        (.toolUse nm id input)).1.activityThrottle pid = some t ∧
      (∀ (nm' id' : String) (input' : ToolInput) (t' : Int), t' - t < 1000 →
        ∀ k, activityTimes
          (processAssistantBlock (some pid) t' config
            (processAssistantBlock (some pid) t config s (.toolUse nm id input)).1
            (.toolUse nm' id' input')).2 k = [])) ∧
    (¬ (t - (mapGet s.activityThrottle pid).getD 0 ≥ 1000) →
      (∀ k, activityTimes
        (processAssistantBlock (some pid) t config s (.toolUse nm id input)).2 k = []) ∧
      mapGet (processAssistantBlock (some pid) t config s
        (.toolUse nm id input)).1.activityThrottle pid
        = mapGet s.activityThrottle pid) := by
  have g2 := stageTask_thr t config s (.toolUse nm id input)
  constructor
  · intro hopen
    have hopen2 : t - (mapGet (stageTask t config s
        (.toolUse nm id input)).1.activityThrottle pid).getD 0 ≥ 1000 := by
      rw [g2.1]
      exact hopen
    have hact : stageActivity (some pid) t
        (stageTask t config s (.toolUse nm id input)).1 (.toolUse nm id input)
        = ({ (stageTask t config s (.toolUse nm id input)).1 with
            activityThrottle := mapSet (stageTask t config s
              (.toolUse nm id input)).1.activityThrottle pid t }, []) := by
      simp only [stageActivity, if_pos hp, if_pos hopen2, hd]
      simp
    have hS1 : mapGet (processAssistantBlock (some pid) t config s
        (.toolUse nm id input)).1.activityThrottle pid = some t := by
      rw [processAssistantBlock_toolUse, hact]
      simp [mapGet_mapSet]
    refine ⟨?_, hS1, ?_⟩
    · intro k
      rw [processAssistantBlock_toolUse]
      simp only [activityTimes_append]
      rw [g2.2 k, hact]
      simp [activityTimes]
    · intro nm' id' input' t' hlt k
      have g2' := stageTask_thr t' config
        (processAssistantBlock (some pid) t config s (.toolUse nm id input)).1
        (.toolUse nm' id' input')
      have hclosed : ¬ (t' - (mapGet (stageTask t' config
          (processAssistantBlock (some pid) t config s (.toolUse nm id input)).1
          (.toolUse nm' id' input')).1.activityThrottle pid).getD 0 ≥ 1000) := by
        rw [g2'.1, hS1]
        simp only [Option.getD_some]
        omega
      have hact' : stageActivity (some pid) t'
          (stageTask t' config
            (processAssistantBlock (some pid) t config s (.toolUse nm id input)).1
            (.toolUse nm' id' input')).1 (.toolUse nm' id' input')
          = ((stageTask t' config
              (processAssistantBlock (some pid) t config s (.toolUse nm id input)).1
              (.toolUse nm' id' input')).1, []) := by
        simp only [stageActivity, if_pos hp, if_neg hclosed]
      rw [processAssistantBlock_toolUse]
      simp only [activityTimes_append]
      rw [g2'.2 k, hact']
      simp [activityTimes]
  · intro hclosed
    have hclosed2 : ¬ (t - (mapGet (stageTask t config s
        (.toolUse nm id input)).1.activityThrottle pid).getD 0 ≥ 1000) := by
      rw [g2.1]
      exact hclosed
    have hact : stageActivity (some pid) t
        (stageTask t config s (.toolUse nm id input)).1 (.toolUse nm id input)
        = ((stageTask t config s (.toolUse nm id input)).1, []) := by
      simp only [stageActivity, if_pos hp, if_neg hclosed2]
    constructor
    · intro k
      rw [processAssistantBlock_toolUse]
      simp only [activityTimes_append]
      rw [g2.2 k, hact]
      simp [activityTimes]
    · rw [processAssistantBlock_toolUse, hact]
      exact g2.1.symm ▸ rfl


theorem ineligible_throttle_spec_witness :
    mapGet (processAssistantBlock (some "e1") 1002500 demoConfig
      { initOrchState with activityThrottle := [("e1", 1001000)] }
      (.toolUse "Bash" "r2" {})).1.activityThrottle "e1" = some 1002500 :=
  ((ineligible_throttle_spec demoConfig
    { initOrchState with activityThrottle := [("e1", 1001000)] }
    "e1" 1002500 "Bash" "r2" {} (by decide) rfl).1 (by decide)).2.1

/-! ### C5 — failures emit an error `complete` event and propagate -/

theorem runLoop_ok_of_noFailure (config : AgentConfig) :
    ∀ (stream : List Timed) (ls : LoopState),
      (∀ tm ∈ stream, isFailureMsg tm.msg = false) →
      ∃ ls', runLoop config ls stream = .ok ls' := by
  intro stream
  induction stream with
  | nil => exact fun ls _ => ⟨ls, rfl⟩
  | cons m rest ih =>
      intro ls hnf
      cases m with
      | mk tm msg =>
          cases msg with
          | systemInit => exact ih ls (fun x hx => hnf x (List.mem_cons_of_mem _ hx))
          | otherMessage => exact ih ls (fun x hx => hnf x (List.mem_cons_of_mem _ hx))
          | assistant parent content usage =>
              exact ih _ (fun x hx => hnf x (List.mem_cons_of_mem _ hx))
          | user content =>
              exact ih _ (fun x hx => hnf x (List.mem_cons_of_mem _ hx))
          | resultSuccess result cost =>
              exact ih _ (fun x hx => hnf x (List.mem_cons_of_mem _ hx))
          | resultFailure subtype errors cost =>
              exact absurd (hnf ⟨tm, .resultFailure subtype errors cost⟩
                (List.mem_cons_self _ _)) (by simp [isFailureMsg])

theorem runLoop_error_of_failure (config : AgentConfig) :
    ∀ (stream : List Timed) (ls : LoopState),
      (∃ tm ∈ stream, isFailureMsg tm.msg) →
      ∃ e, runLoop config ls stream = .error e := by
  intro stream
  induction stream with
  | nil =>
      intro ls hf
      obtain ⟨tm, htm, _⟩ := hf
      exact absurd htm (List.not_mem_nil tm)
  | cons m rest ih =>
      intro ls hf
      cases m with
      | mk tm msg =>
          cases msg with
          | resultFailure subtype errors cost =>
              exact ⟨(agentFailureMessage subtype errors, tm,
                { ls with totalCostUsd := cost }), rfl⟩
          | systemInit =>
              refine ih ls ?_
              obtain ⟨x, hx, hfx⟩ := hf
              rcases List.mem_cons.mp hx with h | h
              · rw [h] at hfx; simp [isFailureMsg] at hfx
              · exact ⟨x, h, hfx⟩
          | otherMessage =>
              refine ih ls ?_
              obtain ⟨x, hx, hfx⟩ := hf
              rcases List.mem_cons.mp hx with h | h
              · rw [h] at hfx; simp [isFailureMsg] at hfx
              · exact ⟨x, h, hfx⟩
          | assistant parent content usage =>
              refine ih _ ?_
              obtain ⟨x, hx, hfx⟩ := hf
              rcases List.mem_cons.mp hx with h | h
              · rw [h] at hfx; simp [isFailureMsg] at hfx
              · exact ⟨x, h, hfx⟩
          | user content =>
              refine ih _ ?_
              obtain ⟨x, hx, hfx⟩ := hf
              rcases List.mem_cons.mp hx with h | h
              · rw [h] at hfx; simp [isFailureMsg] at hfx
              · exact ⟨x, h, hfx⟩
          | resultSuccess result cost =>
              refine ih _ ?_
              obtain ⟨x, hx, hfx⟩ := hf
              rcases List.mem_cons.mp hx with h | h
              · rw [h] at hfx; simp [isFailureMsg] at hfx
              · exact ⟨x, h, hfx⟩

/-- **C5.** For every run in which the engine yields a non-success
terminal result or raises, `runReview`'s event stream ends with a
`complete` event of status error carrying the failure message, the same
message is re-raised to the caller, and the job runner records the job
as errored with that message. -/
theorem engineFailure_spec (config : AgentConfig) (t0 : Int) (stream : List Timed)
    (engineEnd : EngineEnd) (tEnd : Int)
    (hfail : (∃ tm ∈ stream, isFailureMsg tm.msg) ∨ engineEndThrows engineEnd = true) :
    ∃ m te, (runReviewModel config t0 stream engineEnd tEnd).2 = .error m ∧
      (wireEvents (runReviewModel config t0 stream engineEnd tEnd).1).getLast?
        = some (.complete te .error (some m)) ∧
      startReviewFinalStatus config t0 stream engineEnd tEnd
        = (JobStatus.error, some m) := by
  by_cases hs : ∃ tm ∈ stream, isFailureMsg tm.msg
  · obtain ⟨⟨msg, te, ls⟩, hr⟩ := runLoop_error_of_failure config stream (initLoopState t0) hs
    refine ⟨msg, te, ?_, ?_, ?_⟩
    · unfold runReviewModel
      rw [hr]
    · unfold runReviewModel
      rw [hr]
      simp [wireEvents]
    · unfold startReviewFinalStatus runReviewModel
      rw [hr]
  · have hnf : ∀ tm ∈ stream, isFailureMsg tm.msg = false := by
      intro tm htm
      by_contra hc
      exact hs ⟨tm, htm, by simpa using hc⟩
    obtain ⟨ls, hr⟩ := runLoop_ok_of_noFailure config stream (initLoopState t0) hnf
    rcases hfail with hf | hf
    · exact absurd hf hs
    · cases engineEnd with
      | finishes => simp [engineEndThrows] at hf
      | throws tt em =>
          refine ⟨em.getD "Unknown error", tt, ?_, ?_, ?_⟩
          · unfold runReviewModel
            rw [hr]
          · unfold runReviewModel
            rw [hr]
            simp [wireEvents]
          · unfold startReviewFinalStatus runReviewModel
            rw [hr]

theorem engineFailure_spec_witness :
    ∃ m te,
      (runReviewModel demoConfig 999000
        [⟨1000000, .resultFailure "error_max_turns" "[]" 0⟩] .finishes 1001000).2
        = .error m ∧
      (wireEvents (runReviewModel demoConfig 999000
        [⟨1000000, .resultFailure "error_max_turns" "[]" 0⟩] .finishes 1001000).1).getLast?
        = some (.complete te .error (some m)) ∧
      startReviewFinalStatus demoConfig 999000
        [⟨1000000, .resultFailure "error_max_turns" "[]" 0⟩] .finishes 1001000
        = (JobStatus.error, some m) :=
  engineFailure_spec demoConfig 999000
    [⟨1000000, .resultFailure "error_max_turns" "[]" 0⟩] .finishes 1001000
    (Or.inl ⟨⟨1000000, .resultFailure "error_max_turns" "[]" 0⟩,
      List.mem_singleton.mpr rfl, by simp [isFailureMsg]⟩)

end OpenReview
